import Mathlib

/-!
Verification of the tool-calling agent core: the argument normalizer
(`src/utils/json_clean.py`) and the turn controller (`src/core/agent.py`).

Python strings are modelled as lists of Unicode code points (`PyStr`), so that
every Python string value (including lone surrogates) is representable.  JSON
values recovered by the normalizer are modelled by `Json`, covering the Python
runtime values `None`, `bool`, `int`, `str`, `list`, `dict` that `json.loads`
or `json_repair` can produce.  Floating-point JSON numbers are outside the
embedding: the number grammar is modelled for integer literals only, and the
model's `json.loads` rejects fractional/exponent forms instead of building a
float.  No claim below exercises a float input.
-/

namespace ApiAgent

/-- A Python string: a sequence of Unicode code points. -/
abbrev PyStr := List Nat

/-- Embed a Lean string literal as a Python string (code points). -/
def pyStr (s : String) : PyStr := s.data.map Char.toNat

/-- Code points Python treats as whitespace in `str.strip()` and in the
regular-expression class `\s` (Unicode mode). -/
def isPySpace (c : Nat) : Bool :=
  c = 32 || (9 ≤ c && c ≤ 13) || (28 ≤ c && c ≤ 31) || c = 133 || c = 160 ||
  c = 0x1680 || (0x2000 ≤ c && c ≤ 0x200a) || c = 0x2028 || c = 0x2029 ||
  c = 0x202f || c = 0x205f || c = 0x3000

/-- Whitespace skipped by `json.loads`: space, tab, newline, carriage return. -/
def isJsonWs (c : Nat) : Bool := c = 32 || c = 9 || c = 10 || c = 13

/-- Drop leading Python whitespace. -/
def dropLeadingWs : PyStr → PyStr
  | [] => []
  | c :: r => if isPySpace c then dropLeadingWs r else c :: r

/-- Python `str.strip()`: remove leading and trailing whitespace. -/
def pyStrip (s : PyStr) : PyStr :=
  (dropLeadingWs ((dropLeadingWs s).reverse)).reverse

/-- JSON values as Python runtime objects (`None`, `bool`, `int`, `str`,
`list`, `dict`).  `obj` keeps the dict's insertion order, like Python dicts. -/
inductive Json where
  | null
  | bool (b : Bool)
  | num (n : Int)
  | str (s : PyStr)
  | arr (elems : List Json)
  | obj (members : List (PyStr × Json))

/-! ### The `json.dumps` model

Python's `json.dumps` with default options: `ensure_ascii=True`, separators
`", "` and `": "`.  Printable ASCII other than `"` and `\` is kept literal;
everything else becomes a short escape or a `\uXXXX` escape (a surrogate pair
for code points beyond the BMP). -/

/-- Lowercase hexadecimal digit code point for `n < 16`. -/
def toHexDigitCp (n : Nat) : Nat := if n < 10 then 48 + n else 87 + n

/-- Four lowercase hex digits of `n % 0x10000`, most significant first. -/
def hex4 (n : Nat) : List Nat :=
  [toHexDigitCp (n / 4096 % 16), toHexDigitCp (n / 256 % 16),
   toHexDigitCp (n / 16 % 16), toHexDigitCp (n % 16)]

/-- One character of a dumped string, after `json.dumps` escaping. -/
def escapeChar (c : Nat) : List Nat :=
  if c = 34 then [92, 34]
  else if c = 92 then [92, 92]
  else if c = 8 then [92, 98]
  else if c = 12 then [92, 102]
  else if c = 10 then [92, 110]
  else if c = 13 then [92, 114]
  else if c = 9 then [92, 116]
  else if 32 ≤ c ∧ c ≤ 126 then [c]
  else if c < 0x10000 then 92 :: 117 :: hex4 c
  else
    let v := c - 0x10000
    (92 :: 117 :: hex4 (0xd800 + v / 0x400)) ++ (92 :: 117 :: hex4 (0xdc00 + v % 0x400))

/-- A dumped string: quote, escaped characters, quote. -/
def dumpStr (s : PyStr) : PyStr := 34 :: (s.flatMap escapeChar ++ [34])

/-- Decimal digit code points of `n`, most significant first, prepended to
`acc`.  The first argument is recursion fuel; any fuel `≥ n` is enough. -/
def natDigitsAux : Nat → Nat → List Nat → List Nat
  | 0, n, acc => (48 + n % 10) :: acc
  | fuel + 1, n, acc =>
      if n < 10 then (48 + n) :: acc
      else natDigitsAux fuel (n / 10) ((48 + n % 10) :: acc)

/-- Decimal digit code points of `n`, as Python's `str` prints a natural. -/
def natDigits (n : Nat) : List Nat := natDigitsAux n n []

/-- Python `str(int)`: optional minus sign, then decimal digits. -/
def intChars (i : Int) : PyStr :=
  if i < 0 then 45 :: natDigits i.natAbs else natDigits i.natAbs

mutual
/-- `json.dumps` of a value, as a code-point list (default separators). -/
def dumps : Json → PyStr
  | .null => [110, 117, 108, 108]
  | .bool true => [116, 114, 117, 101]
  | .bool false => [102, 97, 108, 115, 101]
  | .num n => intChars n
  | .str s => dumpStr s
  | .arr es => 91 :: (dumpItems es ++ [93])
  | .obj ms => 123 :: (dumpPairs ms ++ [125])
/-- Array elements, `", "`-separated. -/
def dumpItems : List Json → PyStr
  | [] => []
  | e :: es => dumps e ++ dumpItemsSep es
/-- Continuation of `dumpItems`: each further element preceded by `", "`. -/
def dumpItemsSep : List Json → PyStr
  | [] => []
  | e :: es => 44 :: 32 :: (dumps e ++ dumpItemsSep es)
/-- Object members, `"key": value` with `", "` separators. -/
def dumpPairs : List (PyStr × Json) → PyStr
  | [] => []
  | (k, v) :: ms => dumpStr k ++ 58 :: 32 :: (dumps v ++ dumpPairsSep ms)
/-- Continuation of `dumpPairs`: each further member preceded by `", "`. -/
def dumpPairsSep : List (PyStr × Json) → PyStr
  | [] => []
  | (k, v) :: ms => 44 :: 32 :: (dumpStr k ++ 58 :: 32 :: (dumps v ++ dumpPairsSep ms))
end

/-! ### Well-formedness of Python values

A Python string is a sequence of code points `≤ 0x10FFFF`; round-tripping
additionally needs them to be scalar values (no surrogates), and Python dicts
cannot repeat keys.  `wfJson` captures exactly these representation
invariants of real Python data. -/

/-- A Unicode scalar value: in range and not a surrogate code point. -/
def wfChar (c : Nat) : Bool := c < 0xd800 || (0xdfff < c && c ≤ 0x10ffff)

/-- Every character is a Unicode scalar value. -/
def wfStr (s : PyStr) : Bool := s.all wfChar

/-- Membership of a key in a member list. -/
def keyMem (k : PyStr) : List (PyStr × Json) → Bool
  | [] => false
  | (k0, _) :: t => k0 = k || keyMem k t

mutual
/-- Well-formed Python value: scalar-value strings, no duplicated dict keys. -/
def wfJson : Json → Bool
  | .null => true
  | .bool _ => true
  | .num _ => true
  | .str s => wfStr s
  | .arr es => wfItems es
  | .obj ms => wfPairs ms
/-- `wfJson` over a list of elements. -/
def wfItems : List Json → Bool
  | [] => true
  | e :: es => wfJson e && wfItems es
/-- `wfJson` over members: keys are well-formed and pairwise distinct. -/
def wfPairs : List (PyStr × Json) → Bool
  | [] => true
  | (k, v) :: ms => wfStr k && !(keyMem k ms) && wfJson v && wfPairs ms
end

/-! ### The `json.loads` model

A strict recursive-descent parser mirroring Python's `json.decoder` (strict
mode): JSON whitespace between tokens, strings with escape decoding and
surrogate-pair recombination, integer number literals (no leading zeros),
`dict(pairs)` semantics for repeated keys.  The `tol` flag additionally
accepts a trailing comma before `}` or `]`; with `tol := false` this is
`json.loads`, with `tol := true` it is the tolerant reparse used to model the
`json_repair` pass.  The `Nat` argument is structural recursion fuel; any fuel
larger than the input length is enough. -/

/-- Skip JSON whitespace. -/
def skipJsonWs : PyStr → PyStr
  | [] => []
  | c :: r => if isJsonWs c then skipJsonWs r else c :: r

/-- Hexadecimal digit value of a code point, if it is a hex digit. -/
def hexVal (c : Nat) : Option Nat :=
  if 48 ≤ c ∧ c ≤ 57 then some (c - 48)
  else if 97 ≤ c ∧ c ≤ 102 then some (c - 87)
  else if 65 ≤ c ∧ c ≤ 70 then some (c - 55)
  else none

/-- Value of four hex digit code points, most significant first. -/
def hex4Val (a b c d : Nat) : Option Nat :=
  match hexVal a, hexVal b, hexVal c, hexVal d with
  | some va, some vb, some vc, some vd => some (((va * 16 + vb) * 16 + vc) * 16 + vd)
  | _, _, _, _ => none

/-- Short escapes accepted after a backslash (strict mode). -/
def unescapeChar (e : Nat) : Option Nat :=
  if e = 34 then some 34
  else if e = 92 then some 92
  else if e = 47 then some 47
  else if e = 98 then some 8
  else if e = 102 then some 12
  else if e = 110 then some 10
  else if e = 114 then some 13
  else if e = 116 then some 9
  else none

/-- Surrogate-pair recombination, after a decoded `\uXXXX` of value `u` with
remainder `r1`: when `u` is a high surrogate and another `\uXXXX` follows, a
low surrogate pairs up (consuming it), an invalid hex quadruple is an error,
and anything else leaves `u` as a lone surrogate; a non-surrogate `u` is kept
as-is.  Mirrors the peeking logic of Python's `scanstring`. -/
def decodeUHigh (u : Nat) (r1 : PyStr) : Option (Nat × PyStr) :=
  match r1 with
  | 92 :: 117 :: a2 :: b2 :: c2 :: d2 :: r2 =>
      (match hex4Val a2 b2 c2 d2 with
       | none => none
       | some u2 =>
           if 0xdc00 ≤ u2 ∧ u2 ≤ 0xdfff then
             some (0x10000 + (u - 0xd800) * 0x400 + (u2 - 0xdc00), r2)
           else some (u, r1))
  | _ => some (u, r1)

/-- The surrogate dispatch itself: only a high surrogate peeks ahead. -/
def decodeU (u : Nat) (r1 : PyStr) : Option (Nat × PyStr) :=
  if 0xd800 ≤ u ∧ u ≤ 0xdbff then decodeUHigh u r1 else some (u, r1)

/-- Parse a string body after the opening quote, returning the decoded
characters and the remainder after the closing quote.  Mirrors Python's
`scanstring` in strict mode: raw control characters are rejected, `\uXXXX`
escapes are decoded, and a high surrogate followed by a `\uXXXX` low
surrogate recombines into one code point (lone surrogates are kept).  The
`Nat` argument is recursion fuel; every step consumes at least one input
character, so any fuel beyond the input length is enough. -/
def parseStrBody : Nat → PyStr → Option (PyStr × PyStr)
  | 0, _ => none
  | _ + 1, [] => none
  | fuel + 1, c :: r =>
      if c = 34 then some ([], r)
      else if c = 92 then
        (match r with
         | 117 :: a :: b :: cc :: d :: r1 =>
             (match hex4Val a b cc d with
              | none => none
              | some u =>
                  match decodeU u r1 with
                  | none => none
                  | some (ch, r2) => (parseStrBody fuel r2).map (fun p => (ch :: p.1, p.2)))
         | e :: r1 =>
             (match unescapeChar e with
              | some ch => (parseStrBody fuel r1).map (fun p => (ch :: p.1, p.2))
              | none => none)
         | [] => none)
      else if c < 32 then none
      else (parseStrBody fuel r).map (fun p => (c :: p.1, p.2))

/-- Parse a string after its opening quote, with enough fuel for the input. -/
def parseStr (s : PyStr) : Option (PyStr × PyStr) := parseStrBody (s.length + 1) s

/-- Is the code point a decimal digit? -/
def isDigitCp (c : Nat) : Bool := 48 ≤ c && c ≤ 57

/-- Greedily take a run of decimal digits. -/
def takeDigits : PyStr → PyStr × PyStr
  | [] => ([], [])
  | c :: r =>
      if isDigitCp c then
        let p := takeDigits r
        (c :: p.1, p.2)
      else ([], c :: r)

/-- Value of a digit run. -/
def digitsVal (ds : PyStr) : Nat := ds.foldl (fun a c => a * 10 + (c - 48)) 0

/-- Parse the integer part of a JSON number: `0` or a nonzero digit followed
by more digits (the `(?:0|[1-9]\d*)` part of Python's number grammar). -/
def parseIntPart : PyStr → Option (Nat × PyStr)
  | [] => none
  | c :: r =>
      if c = 48 then some (0, r)
      else if 49 ≤ c ∧ c ≤ 57 then
        let p := takeDigits r
        some (digitsVal (c :: p.1), p.2)
      else none

/-- Does a fractional part or an exponent follow (so that Python's grammar
would continue the match into a float literal)? -/
def floatFollows : PyStr → Bool
  | 46 :: d :: _ => isDigitCp d
  | 101 :: r => expFollows r
  | 69 :: r => expFollows r
  | _ => false
where
  /-- An exponent tail: optional sign then a digit. -/
  expFollows : PyStr → Bool
    | 43 :: d :: _ => isDigitCp d
    | 45 :: d :: _ => isDigitCp d
    | d :: _ => isDigitCp d
    | [] => false

/-- Parse a JSON number.  Integer literals produce `Json.num`; a literal that
Python would parse as a float (fraction or exponent) is outside the model and
is rejected. -/
def parseNumber (s : PyStr) : Option (Json × PyStr) :=
  match s with
  | [] => none
  | c :: r =>
      if c = 45 then
        (match parseIntPart r with
         | some (n, rest) =>
             if floatFollows rest then none else some (Json.num (-(n : Int)), rest)
         | none => none)
      else
        (match parseIntPart (c :: r) with
         | some (n, rest) =>
             if floatFollows rest then none else some (Json.num (n : Int), rest)
         | none => none)

/-- Python `dict` update: replace the value in place if the key is present,
else append the pair. -/
def dictSet (m : List (PyStr × Json)) (k : PyStr) (v : Json) : List (PyStr × Json) :=
  match m with
  | [] => [(k, v)]
  | (k0, v0) :: t => if k0 = k then (k0, v) :: t else (k0, v0) :: dictSet t k v

/-- Python `dict(pairs)`: a later duplicate key overwrites the value but keeps
the first occurrence's position. -/
def pyDictOf (pairs : List (PyStr × Json)) : List (PyStr × Json) :=
  pairs.foldl (fun m p => dictSet m p.1 p.2) []

mutual
/-- Parse one JSON value at the head of the input (no leading whitespace,
as in Python's `scan_once`). -/
def parseVal (tol : Bool) : Nat → PyStr → Option (Json × PyStr)
  | 0, _ => none
  | fuel + 1, s =>
      match s with
      | [] => none
      | c :: r =>
          if c = 34 then (parseStr r).map (fun p => (Json.str p.1, p.2))
          else if c = 123 then
            (match skipJsonWs r with
             | 125 :: r2 => some (Json.obj [], r2)
             | r1 => (parsePairs tol fuel r1).map (fun p => (Json.obj (pyDictOf p.1), p.2)))
          else if c = 91 then
            (match skipJsonWs r with
             | 93 :: r2 => some (Json.arr [], r2)
             | r1 => (parseItems tol fuel r1).map (fun p => (Json.arr p.1, p.2)))
          else if c = 110 then
            (match r with
             | 117 :: 108 :: 108 :: r2 => some (Json.null, r2)
             | _ => none)
          else if c = 116 then
            (match r with
             | 114 :: 117 :: 101 :: r2 => some (Json.bool true, r2)
             | _ => none)
          else if c = 102 then
            (match r with
             | 97 :: 108 :: 115 :: 101 :: r2 => some (Json.bool false, r2)
             | _ => none)
          else parseNumber (c :: r)
/-- Parse one-or-more object members, starting at the first key's quote. -/
def parsePairs (tol : Bool) : Nat → PyStr → Option (List (PyStr × Json) × PyStr)
  | 0, _ => none
  | fuel + 1, s =>
      match s with
      | 34 :: r =>
          (match parseStr r with
           | none => none
           | some (k, r1) =>
               (match skipJsonWs r1 with
                | 58 :: r2 =>
                    (match parseVal tol fuel (skipJsonWs r2) with
                     | none => none
                     | some (v, r3) =>
                         (match skipJsonWs r3 with
                          | 44 :: r4 =>
                              (match skipJsonWs r4 with
                               | 125 :: r6 => if tol then some ([(k, v)], r6) else none
                               | r5 =>
                                   (match parsePairs tol fuel r5 with
                                    | some (ps, r6) => some ((k, v) :: ps, r6)
                                    | none => none))
                          | 125 :: r4 => some ([(k, v)], r4)
                          | _ => none))
                | _ => none))
      | _ => none
/-- Parse one-or-more array elements, starting at the first value. -/
def parseItems (tol : Bool) : Nat → PyStr → Option (List Json × PyStr)
  | 0, _ => none
  | fuel + 1, s =>
      match parseVal tol fuel s with
      | none => none
      | some (v, r) =>
          match skipJsonWs r with
          | 44 :: r2 =>
              (match skipJsonWs r2 with
               | 93 :: r4 => if tol then some ([v], r4) else none
               | r3 =>
                   match parseItems tol fuel r3 with
                   | some (vs, r4) => some (v :: vs, r4)
                   | none => none)
          | 93 :: r2 => some ([v], r2)
          | _ => none
end

/-- Decode a whole document: leading/trailing whitespace allowed, everything
else is an error (`Extra data`). -/
def loadsWith (tol : Bool) (s : PyStr) : Option Json :=
  match parseVal tol (s.length + 1) (skipJsonWs s) with
  | some (v, r) => if skipJsonWs r = [] then some v else none
  | none => none

/-- `json.loads` (strict): `some` a value or `none` for `JSONDecodeError`. -/
def json_loads (s : PyStr) : Option Json := loadsWith false s

/-- The tolerant reparse (trailing commas accepted). -/
def loadsTolerant (s : PyStr) : Option Json := loadsWith true s

/-! ### The `extract_json_block` model (`src/utils/json_clean.py`)

Step 1 is `re.search` with the pattern `[fence](?:json)?\s*(\{.*?\})\s*[fence]`
(where `[fence]` is three backticks, code point 96), flags `DOTALL` and
`IGNORECASE`.  The search scans start positions left to right; at a fence,
the optional `json` word is consumed if present (backtracking to the empty
alternative cannot succeed, since `\s*` then `\{` fails on the letter `j`),
`\s*` is maximal (the following literal `\{` is not whitespace), and the lazy
`.*?` stops at the first closing brace whose tail `\s*` + fence matches.
Step 2 falls back to the slice from the first `{` to the last `}`. -/

/-- Skip regular-expression whitespace (`\s*` before a literal that is not
itself whitespace, so maximal munch is exact). -/
def skipReWs : PyStr → PyStr
  | [] => []
  | c :: r => if isPySpace c then skipReWs r else c :: r

/-- Lowercase an ASCII letter code point (for `IGNORECASE`). -/
def lowerCp (c : Nat) : Nat := if 65 ≤ c ∧ c ≤ 90 then c + 32 else c

/-- Consume the optional `json` word (case-insensitive) after the fence. -/
def stripJsonWord (s : PyStr) : PyStr :=
  match s with
  | j :: o :: s1 :: n :: r =>
      if lowerCp j = 106 ∧ lowerCp o = 115 ∧ lowerCp s1 = 111 ∧ lowerCp n = 110 then r
      else s
  | _ => s

/-- Does `\s*` followed by a closing fence match here? -/
def fenceAfterClose (s : PyStr) : Bool :=
  match skipReWs s with
  | 96 :: 96 :: 96 :: _ => true
  | _ => false

/-- The lazy `.*?\}`: try each closing brace in turn; the first whose tail
matches ends the group.  `accRev` holds the group so far, reversed. -/
def lazyGroup (accRev : PyStr) : PyStr → Option PyStr
  | [] => none
  | c :: r =>
      if c = 125 && fenceAfterClose r then some ((125 :: accRev).reverse)
      else lazyGroup (c :: accRev) r

/-- Try the full fence pattern at this position. -/
def tryFenceAt (s : PyStr) : Option PyStr :=
  match s with
  | 96 :: 96 :: 96 :: r =>
      (match skipReWs (stripJsonWord r) with
       | 123 :: body => lazyGroup [123] body
       | _ => none)
  | _ => none

/-- `re.search`: the match at the leftmost position where one exists. -/
def fenceSearch : PyStr → Option PyStr
  | [] => none
  | c :: t =>
      match tryFenceAt (c :: t) with
      | some g => some g
      | none => fenceSearch t

/-- `extract_json_block`: code-fence group if the pattern matches, else the
slice from the first `{` to the last `}` when that span is nonempty, else
the text unchanged. -/
def extract_json_block (text : PyStr) : PyStr :=
  match fenceSearch text with
  | some g => g
  | none =>
      match text.findIdx? (fun c => c = 123), text.reverse.findIdx? (fun c => c = 125) with
      | some st, some rv =>
          let en := text.length - 1 - rv
          if st < en then (text.drop st).take (en + 1 - st) else text
      | _, _ => text

/-! ### The `parse_json_from_llm` model (`src/utils/json_clean.py`)

Empty input returns the empty dict.  Without the optional `json_repair`
library (`HAS_JSON_REPAIR = False`), the fallback path extracts a JSON block,
strips it, and strict-parses it, returning the result only when it is a dict
and the empty dict otherwise (parse errors included).  With the library, the
repaired value is returned when it is a dict, the first element of a repaired
array is returned when that element is a dict, any other repaired value gives
the empty dict, and an exception inside the library falls back to the manual
path.  `repair` models the library as a pure function (`none` = exception). -/

/-- The manual cleaning path (scheme B in the source). -/
def planB (raw : PyStr) : Json :=
  let clean := pyStrip (extract_json_block raw)
  match json_loads clean with
  | some (Json.obj m) => Json.obj m
  | _ => Json.obj []

/-- `parse_json_from_llm` with `HAS_JSON_REPAIR = False`: the code that is
fully contained in the repository. -/
def parse_json_from_llm (raw : PyStr) : Json :=
  if raw = [] then Json.obj [] else planB raw

/-- `parse_json_from_llm` with `HAS_JSON_REPAIR = True`, over an arbitrary
behaviour `repair` of the external library. -/
def parse_json_from_llm_repair (repair : PyStr → Option Json) (raw : PyStr) : Json :=
  if raw = [] then Json.obj []
  else
    match repair raw with
    | some (Json.obj m) => Json.obj m
    | some (Json.arr (Json.obj m :: _)) => Json.obj m
    | some _ => Json.obj []
    | none => planB raw

/-- Modelled from the spec: the external `json_repair` library (imported by
`src/utils/json_clean.py` but not part of `src/`).  The spec describes it as
a best-effort tolerant pass that recovers an object from text with trailing
commas, prose wrapping the object, or code-fence wrapping, and may yield a
sequence (array) instead of an object; `none` models an exception.  The model
first reads the whole text tolerantly (so a bare array or an object with a
trailing comma is recovered as-is), then retries on the extracted block (so
prose or fence wrapping is shed). -/
def repair_json_model (raw : PyStr) : Option Json :=
  match loadsTolerant raw with
  | some v => some v
  | none => loadsTolerant (extract_json_block raw)

/-! ### The turn controller (`src/core/agent.py`)

The transcript is a list of role-tagged entries.  The model backend is an
external collaborator: a function from the current transcript to a response
(text content plus requested tool calls).  Tool handlers are functions from
the normalized arguments to a result, with `Except.error` modelling a raised
exception.  All Python strings are code-point lists. -/

/-- Transcript entry roles. -/
inductive Role where
  | system
  | user
  | assistant
  | tool
deriving DecidableEq

/-- A tool-call request issued by the model: identifier, tool name, raw
argument text. -/
structure ToolCall where
  id : PyStr
  name : PyStr
  args : PyStr
deriving DecidableEq

/-- A transcript entry.  Assistant entries carry their tool-call requests
(`model_dump` of the response message); tool entries carry the identifier of
the request they answer. -/
structure Message where
  role : Role
  content : PyStr
  toolCalls : List ToolCall
  toolCallId : Option PyStr
deriving DecidableEq

/-- A model backend response: content and requested tool calls. -/
structure ModelResponse where
  content : PyStr
  toolCalls : List ToolCall
deriving DecidableEq

/-- The model backend, as the turn controller sees it: transcript in,
response out. -/
abbrev Backend := List Message → ModelResponse

/-- A tool handler: normalized arguments to result text; `error` models an
exception raised inside the handler. -/
abbrev Handler := Json → Except PyStr PyStr

/-- The tool registry: name to handler (`None` = not registered). -/
abbrev Funcs := PyStr → Option Handler

/-- The appended `user` entry. -/
def userMsg (content : PyStr) : Message := ⟨Role.user, content, [], none⟩

/-- The appended `assistant` entry for a model response. -/
def assistantMsg (r : ModelResponse) : Message := ⟨Role.assistant, r.content, r.toolCalls, none⟩

/-- The appended `tool` entry for one tool call. -/
def toolMsg (id content : PyStr) : Message := ⟨Role.tool, content, [], some id⟩

/-- A single-quote character. -/
def sq : PyStr := [39]

/-- The self-correction diagnostic for unparseable arguments
(`agent.py`, the `func_args is None` branch). -/
def invalidJsonMsg (raw : PyStr) : PyStr :=
  pyStr "Error: Invalid JSON format. You provided: " ++ sq ++ raw ++ sq

/-- The unknown-tool diagnostic. -/
def toolNotFoundMsg : PyStr := pyStr "Error: Tool not found."

/-- The caught-exception diagnostic. -/
def toolErrorMsg (e : PyStr) : PyStr := pyStr "Error: " ++ e

/-- Process one tool call, as the loop body of `Agent.chat` does: normalize
the raw arguments, test them against `None`, look the tool up, invoke it,
and convert any raised failure into a diagnostic string. -/
def toolResult (funcs : Funcs) (tc : ToolCall) : PyStr :=
  match parse_json_from_llm tc.args with
  | Json.null => invalidJsonMsg tc.args
  | funcArgs =>
      match funcs tc.name with
      | some f =>
          (match f funcArgs with
           | Except.ok r => r
           | Except.error e => toolErrorMsg e)
      | none => toolNotFoundMsg

/-- The `tool` entry appended for one tool call. -/
def toolMsgOf (funcs : Funcs) (tc : ToolCall) : Message :=
  toolMsg tc.id (toolResult funcs tc)

/-- The `tool` entries appended for one round, in request order. -/
def processCalls (funcs : Funcs) (tcs : List ToolCall) : List Message :=
  tcs.map (toolMsgOf funcs)

/-- The outcome of one `chat` turn: the returned reply, the transcript left
in `self.messages`, the number of backend invocations, and the number of
rounds in which tool calls were processed. -/
structure ChatResult where
  reply : PyStr
  messages : List Message
  calls : Nat
  rounds : Nat
deriving DecidableEq

/-- The fixed advisory message returned at the iteration cap. -/
def advisoryMsg : PyStr := pyStr "⚠️ 任务过长终止。"

/-- The `while iteration < self.max_tool_iterations` loop of `Agent.chat`.
The fuel is `max_tool_iterations - iteration`, which strictly decreases on
every tool round. -/
def chatLoop (backend : Backend) (funcs : Funcs) : Nat → List Message → ChatResult
  | 0, msgs => ⟨advisoryMsg, msgs, 0, 0⟩
  | fuel + 1, msgs =>
      let resp := backend msgs
      let msgs1 := msgs ++ [assistantMsg resp]
      match resp.toolCalls with
      | [] => ⟨resp.content, msgs1, 1, 0⟩
      | _ :: _ =>
          let r := chatLoop backend funcs fuel (msgs1 ++ processCalls funcs resp.toolCalls)
          ⟨r.reply, r.messages, r.calls + 1, r.rounds + 1⟩

/-- Indices of `user` entries (`enumerate` + role filter). -/
def userIndices (msgs : List Message) : List Nat :=
  (msgs.enum.filter (fun p => p.2.role == Role.user)).map Prod.fst

/-- `Agent._manage_history`: below the `max_history * 4` length threshold do
nothing; otherwise, when more than `max_history` user entries exist, keep the
optional leading system entry plus everything from the `max_history`-th most
recent user entry on. -/
def manage_history (maxHistory : Nat) (msgs : List Message) : List Message :=
  if msgs.length < maxHistory * 4 then msgs
  else
    let sysMsg : Option Message :=
      match msgs with
      | [] => none
      | m :: _ => if m.role = Role.system then some m else none
    let uIdx := userIndices msgs
    if maxHistory < uIdx.length then
      let cutoff := uIdx.getD (if maxHistory = 0 then 0 else uIdx.length - maxHistory) 0
      let newHistory := msgs.drop cutoff
      match sysMsg with
      | some m => m :: newHistory
      | none => newHistory
    else msgs

/-- `Agent.chat`: compact history, append the user entry, run the tool-call
loop. -/
def chat (backend : Backend) (funcs : Funcs) (maxHistory maxToolIterations : Nat)
    (userInput : PyStr) (msgs : List Message) : ChatResult :=
  chatLoop backend funcs maxToolIterations
    (manage_history maxHistory msgs ++ [userMsg userInput])

/-- The seeded transcript at agent construction. -/
def initMessages : List Message :=
  [⟨Role.system, pyStr "你是一个拥有长期记忆的研究型Agent。", [], none⟩]

/-- Dictionary lookup (`dict.get`). -/
def dictGet : List (PyStr × Json) → PyStr → Option Json
  | [], _ => none
  | (k0, v) :: t, k => if k0 = k then some v else dictGet t k

/-- `Agent._tool_get_time`: the clock reading is an external input. -/
def tool_get_time (now : PyStr) : Handler := fun _ => Except.ok now

/-- `Agent._tool_manage_memory`: dispatch on the `action` argument; the
note-store reads and writes are external collaborators. -/
def tool_manage_memory (memWrite memRead : Json → Except PyStr PyStr) : Handler :=
  fun args =>
    let action : Option Json :=
      match args with
      | Json.obj m => dictGet m (pyStr "action")
      | _ => none
    let content : Json :=
      match (match args with
             | Json.obj m => dictGet m (pyStr "content")
             | _ => none) with
      | some v => v
      | none => Json.str []
    match action with
    | some (Json.str a) =>
        if a = pyStr "write" then memWrite content
        else if a = pyStr "read" then memRead content
        else Except.ok (pyStr "未知操作")
    | _ => Except.ok (pyStr "未知操作")

/-- `Agent.available_functions`: exactly the two registered tools. -/
def availableFunctions (now : PyStr) (memWrite memRead : Json → Except PyStr PyStr) : Funcs :=
  fun name =>
    if name = pyStr "manage_memory" then some (tool_manage_memory memWrite memRead)
    else if name = pyStr "get_time" then some (tool_get_time now)
    else none

/-- Transcript states reachable from construction through any sequence of
`chat` turns, with arbitrary backends, registries, inputs and configured
bounds. -/
inductive Reachable : List Message → Prop where
  | init : Reachable initMessages
  | step (backend : Backend) (funcs : Funcs) (maxHistory maxToolIterations : Nat)
      (input : PyStr) (msgs : List Message) :
      Reachable msgs →
      Reachable (chat backend funcs maxHistory maxToolIterations input msgs).messages

/-! ### Decimal digits invert (`str(int)` against the number grammar) -/

/-- No further digit (nor a digit run start) follows. -/
def digitBoundary : PyStr → Bool
  | [] => true
  | c :: _ => !isDigitCp c

/-- A remainder that can follow a dumped value: end of input, or one of the
JSON delimiters comma, closing bracket, closing brace. -/
def jsonDelim : PyStr → Bool
  | [] => true
  | c :: _ => c == 44 || c == 93 || c == 125

/-- With enough fuel the digit helper is fuel-independent, and the
accumulator rides along on the right. -/
theorem natDigitsAux_append (n : Nat) : ∀ (fuel : Nat) (acc : List Nat),
    n ≤ fuel → natDigitsAux fuel n acc = natDigits n ++ acc := by
  induction n using Nat.strongRecOn with
  | _ n ih =>
    intro fuel acc h
    match fuel with
    | 0 =>
        have hn : n = 0 := Nat.le_zero.mp h
        subst hn
        simp [natDigitsAux, natDigits]
    | fuel + 1 =>
        by_cases h10 : n < 10
        · simp only [natDigitsAux, if_pos h10]
          cases n with
          | zero => simp [natDigits, natDigitsAux]
          | succ m => simp [natDigits, natDigitsAux, if_pos h10]
        · simp only [natDigitsAux, if_neg h10]
          have hdiv : n / 10 < n := Nat.div_lt_self (by omega) (by omega)
          rw [ih (n / 10) hdiv fuel ((48 + n % 10) :: acc) (by omega)]
          cases n with
          | zero => omega
          | succ m =>
              have hsplit : natDigits (m + 1)
                  = natDigits ((m + 1) / 10) ++ [48 + (m + 1) % 10] := by
                show natDigitsAux (m + 1) (m + 1) [] = _
                simp only [natDigitsAux, if_neg h10]
                exact ih ((m + 1) / 10) hdiv m _ (by omega)
              rw [hsplit]
              simp

/-- One unfolding of `natDigits`, fuel hidden. -/
theorem natDigits_eq (n : Nat) :
    natDigits n = if n < 10 then [48 + n] else natDigits (n / 10) ++ [48 + n % 10] := by
  by_cases h10 : n < 10
  · rw [if_pos h10]
    cases n with
    | zero => simp [natDigits, natDigitsAux]
    | succ m => simp [natDigits, natDigitsAux, if_pos h10]
  · rw [if_neg h10]
    cases n with
    | zero => omega
    | succ m =>
        show natDigitsAux (m + 1) (m + 1) [] = _
        simp only [natDigitsAux, if_neg h10]
        exact natDigitsAux_append ((m + 1) / 10) m _
          (by have := Nat.div_lt_self (show 0 < m + 1 by omega) (show 1 < 10 by omega); omega)

/-- Every produced character is a decimal digit. -/
theorem natDigits_digit (n : Nat) : ∀ c ∈ natDigits n, 48 ≤ c ∧ c ≤ 57 := by
  induction n using Nat.strongRecOn with
  | _ n ih =>
    intro c hc
    rw [natDigits_eq] at hc
    by_cases h10 : n < 10
    · rw [if_pos h10] at hc
      simp at hc
      omega
    · rw [if_neg h10] at hc
      rcases List.mem_append.mp hc with h | h
      · exact ih (n / 10) (Nat.div_lt_self (by omega) (by omega)) c h
      · simp at h
        have := Nat.mod_lt n (show 0 < 10 by omega)
        omega

/-- The digit list is never empty. -/
theorem natDigits_ne_nil (n : Nat) : natDigits n ≠ [] := by
  rw [natDigits_eq]
  by_cases h10 : n < 10 <;> simp [h10]

/-- A positive number's first digit is nonzero. -/
theorem natDigits_head_pos (n : Nat) (hn : 1 ≤ n) :
    ∃ c t, natDigits n = c :: t ∧ 49 ≤ c ∧ c ≤ 57 := by
  induction n using Nat.strongRecOn with
  | _ n ih =>
    rw [natDigits_eq]
    by_cases h10 : n < 10
    · exact ⟨48 + n, [], by rw [if_pos h10], by omega, by omega⟩
    · obtain ⟨c, t, hct, hc1, hc2⟩ :=
        ih (n / 10) (Nat.div_lt_self (by omega) (by omega)) (by omega)
      exact ⟨c, t ++ [48 + n % 10], by rw [if_neg h10, hct]; rfl, hc1, hc2⟩

/-- `takeDigits` consumes exactly a digit run that stops at a boundary. -/
theorem takeDigits_run (ds : PyStr) (hds : ∀ c ∈ ds, 48 ≤ c ∧ c ≤ 57)
    (rest : PyStr) (hrest : digitBoundary rest = true) :
    takeDigits (ds ++ rest) = (ds, rest) := by
  induction ds with
  | nil =>
      cases rest with
      | nil => rfl
      | cons c t =>
          simp only [digitBoundary, Bool.not_eq_true'] at hrest
          simp [takeDigits, hrest]
  | cons d ds ih =>
      have hd : isDigitCp d = true := by
        have := hds d (by simp)
        simp [isDigitCp]
        omega
      have ht := ih (fun c hc => hds c (by simp [hc]))
      simp [takeDigits, hd, ht]

/-- Folding the produced digits recovers the number. -/
theorem digitsVal_natDigits (n : Nat) : digitsVal (natDigits n) = n := by
  induction n using Nat.strongRecOn with
  | _ n ih =>
    rw [digitsVal, natDigits_eq]
    by_cases h10 : n < 10
    · simp only [if_pos h10, List.foldl_cons, List.foldl_nil]
      omega
    · rw [if_neg h10, List.foldl_append]
      have := ih (n / 10) (Nat.div_lt_self (by omega) (by omega))
      rw [digitsVal] at this
      rw [this]
      simp only [List.foldl_cons, List.foldl_nil]
      omega

/-- The integer-part parser inverts `natDigits` up to a digit boundary. -/
theorem parseIntPart_natDigits (n : Nat) (rest : PyStr)
    (hrest : digitBoundary rest = true) :
    parseIntPart (natDigits n ++ rest) = some (n, rest) := by
  by_cases hn : n = 0
  · subst hn
    show parseIntPart ([48] ++ rest) = some (0, rest)
    simp [parseIntPart]
  · obtain ⟨c, t, hct, hc1, hc2⟩ := natDigits_head_pos n (by omega)
    rw [hct]
    have htd : ∀ x ∈ t, 48 ≤ x ∧ x ≤ 57 := by
      intro x hx
      exact natDigits_digit n x (by rw [hct]; exact List.mem_cons_of_mem _ hx)
    simp only [List.cons_append, parseIntPart, if_neg (show ¬(c = 48) by omega),
      if_pos (show 49 ≤ c ∧ c ≤ 57 by omega)]
    rw [takeDigits_run t htd rest hrest]
    have hval : digitsVal (c :: t) = n := by
      rw [← hct]
      exact digitsVal_natDigits n
    simp [hval]

/-- A JSON delimiter is a digit boundary and starts no float tail. -/
theorem jsonDelim_facts (rest : PyStr) (h : jsonDelim rest = true) :
    digitBoundary rest = true ∧ floatFollows rest = false := by
  cases rest with
  | nil => exact ⟨rfl, rfl⟩
  | cons c t =>
      simp only [jsonDelim, Bool.or_eq_true, beq_iff_eq] at h
      rcases h with (h | h) | h <;> subst h <;>
        exact ⟨by simp [digitBoundary, isDigitCp], by simp [floatFollows]⟩

/-- The number parser inverts `str(int)` up to a JSON delimiter. -/
theorem parseNumber_intChars (i : Int) (rest : PyStr)
    (hrest : jsonDelim rest = true) :
    parseNumber (intChars i ++ rest) = some (Json.num i, rest) := by
  obtain ⟨hb, hf⟩ := jsonDelim_facts rest hrest
  have hiota : ∀ (n : Nat),
      (match some (n, rest) with
       | some (m, rest2) =>
           if floatFollows rest2 then none else some (Json.num (-(m : Int)), rest2)
       | none => none)
      = if floatFollows rest then none else some (Json.num (-(n : Int)), rest) := fun _ => rfl
  have hiota2 : ∀ (n : Nat),
      (match some (n, rest) with
       | some (m, rest2) =>
           if floatFollows rest2 then none else some (Json.num (m : Int), rest2)
       | none => none)
      = if floatFollows rest then none else some (Json.num (n : Int), rest) := fun _ => rfl
  by_cases hi : i < 0
  · have harg : intChars i ++ rest = 45 :: (natDigits i.natAbs ++ rest) := by
      rw [intChars, if_pos hi]
      rfl
    rw [harg]
    have hstep : parseNumber (45 :: (natDigits i.natAbs ++ rest))
        = (match parseIntPart (natDigits i.natAbs ++ rest) with
           | some (m, rest2) =>
               if floatFollows rest2 then none else some (Json.num (-(m : Int)), rest2)
           | none => none) := rfl
    rw [hstep, parseIntPart_natDigits i.natAbs rest hb, hiota,
      if_neg (show ¬(floatFollows rest = true) by simp [hf])]
    have h1 : -((i.natAbs : Nat) : Int) = i := by omega
    rw [h1]
  · have hne := natDigits_ne_nil i.natAbs
    obtain ⟨c, t, hct⟩ : ∃ c t, natDigits i.natAbs = c :: t := by
      cases h : natDigits i.natAbs with
      | nil => exact absurd h hne
      | cons c t => exact ⟨c, t, rfl⟩
    have hc : 48 ≤ c ∧ c ≤ 57 := natDigits_digit i.natAbs c (by rw [hct]; simp)
    have harg : intChars i ++ rest = c :: (t ++ rest) := by
      rw [intChars, if_neg hi, hct]
      rfl
    rw [harg]
    have hstep : parseNumber (c :: (t ++ rest))
        = if c = 45 then
            (match parseIntPart (t ++ rest) with
             | some (m, rest2) =>
                 if floatFollows rest2 then none else some (Json.num (-(m : Int)), rest2)
             | none => none)
          else
            (match parseIntPart (c :: (t ++ rest)) with
             | some (m, rest2) =>
                 if floatFollows rest2 then none else some (Json.num (m : Int), rest2)
             | none => none) := rfl
    rw [hstep, if_neg (show ¬(c = 45) by omega),
      show c :: (t ++ rest) = (c :: t) ++ rest from rfl, ← hct,
      parseIntPart_natDigits i.natAbs rest hb, hiota2,
      if_neg (show ¬(floatFollows rest = true) by simp [hf])]
    have h1 : ((i.natAbs : Nat) : Int) = i := by omega
    rw [h1]

/-! ### String escaping inverts (`dumps` escaping against `scanstring`) -/

/-- The hex digit printer and reader are inverse for `k < 16`. -/
theorem hexVal_toHexDigitCp (k : Nat) (h : k < 16) :
    hexVal (toHexDigitCp k) = some k := by
  rw [toHexDigitCp, hexVal]
  by_cases h10 : k < 10
  · rw [if_pos h10, if_pos (by omega)]
    have : 48 + k - 48 = k := by omega
    rw [this]
  · rw [if_neg h10, if_neg (by omega), if_pos (by omega)]
    have : 87 + k - 87 = k := by omega
    rw [this]

/-- Reading the four printed hex digits recovers `n < 0x10000`. -/
theorem hex4Val_digits (n : Nat) (h : n < 0x10000) :
    hex4Val (toHexDigitCp (n / 4096 % 16)) (toHexDigitCp (n / 256 % 16))
      (toHexDigitCp (n / 16 % 16)) (toHexDigitCp (n % 16)) = some n := by
  rw [hex4Val,
    hexVal_toHexDigitCp (n / 4096 % 16) (Nat.mod_lt _ (by omega)),
    hexVal_toHexDigitCp (n / 256 % 16) (Nat.mod_lt _ (by omega)),
    hexVal_toHexDigitCp (n / 16 % 16) (Nat.mod_lt _ (by omega)),
    hexVal_toHexDigitCp (n % 16) (Nat.mod_lt _ (by omega))]
  show some (((n / 4096 % 16 * 16 + n / 256 % 16) * 16 + n / 16 % 16) * 16 + n % 16) = some n
  congr 1
  omega

/-- Escaping always emits at least one character. -/
theorem escapeChar_length_pos (c : Nat) : 1 ≤ (escapeChar c).length := by
  rw [escapeChar]
  split_ifs <;> simp [hex4]

/-- One parse step on a `\uXXXX` escape, written through `decodeU`. -/
theorem parseStrBody_uStep (fuel d1 d2 d3 d4 : Nat) (r1 : PyStr) :
    parseStrBody (fuel + 1) (92 :: 117 :: d1 :: d2 :: d3 :: d4 :: r1)
      = (match hex4Val d1 d2 d3 d4 with
         | none => none
         | some u =>
             match decodeU u r1 with
             | none => none
             | some (ch, r2) => (parseStrBody fuel r2).map (fun p => (ch :: p.1, p.2))) := rfl

/-- One parse step on an unescaped character. -/
theorem parseStrBody_plain (fuel c : Nat) (r : PyStr)
    (h1 : ¬(c = 34)) (h2 : ¬(c = 92)) (h3 : ¬(c < 32)) :
    parseStrBody (fuel + 1) (c :: r) = (parseStrBody fuel r).map (fun p => (c :: p.1, p.2)) := by
  simp only [parseStrBody]
  rw [if_neg h1, if_neg h2, if_neg h3]

/-- A non-surrogate decoded value is kept as-is. -/
theorem decodeU_scalar (u : Nat) (hu : ¬(0xd800 ≤ u ∧ u ≤ 0xdbff)) (r1 : PyStr) :
    decodeU u r1 = some (u, r1) := by
  rw [decodeU, if_neg hu]

/-- A high surrogate followed by the dumped low surrogate recombines. -/
theorem decodeU_pair (u1 u2 : Nat) (h1 : 0xd800 ≤ u1 ∧ u1 ≤ 0xdbff)
    (h2 : 0xdc00 ≤ u2 ∧ u2 ≤ 0xdfff) (r : PyStr) :
    decodeU u1 ((92 :: 117 :: hex4 u2) ++ r)
      = some (0x10000 + (u1 - 0xd800) * 0x400 + (u2 - 0xdc00), r) := by
  rw [decodeU, if_pos h1]
  have hstep : decodeUHigh u1 ((92 :: 117 :: hex4 u2) ++ r)
      = (match hex4Val (toHexDigitCp (u2 / 4096 % 16)) (toHexDigitCp (u2 / 256 % 16))
            (toHexDigitCp (u2 / 16 % 16)) (toHexDigitCp (u2 % 16)) with
         | none => (none : Option (Nat × PyStr))
         | some v2 =>
             if 0xdc00 ≤ v2 ∧ v2 ≤ 0xdfff then
               some (0x10000 + (u1 - 0xd800) * 0x400 + (v2 - 0xdc00), r)
             else some (u1, (92 :: 117 :: hex4 u2) ++ r)) := rfl
  rw [hstep, hex4Val_digits u2 (by omega)]
  show (if 0xdc00 ≤ u2 ∧ u2 ≤ 0xdfff then
          some (0x10000 + (u1 - 0xd800) * 0x400 + (u2 - 0xdc00), r)
        else some (u1, (92 :: 117 :: hex4 u2) ++ r)) = _
  rw [if_pos h2]

/-- Parsing a dumped surrogate pair yields the recombined code point. -/
theorem parseStrBody_pair (u1 u2 : Nat) (h1 : 0xd800 ≤ u1 ∧ u1 ≤ 0xdbff)
    (h2 : 0xdc00 ≤ u2 ∧ u2 ≤ 0xdfff) (fuel : Nat) (r : PyStr) :
    parseStrBody (fuel + 1) ((92 :: 117 :: hex4 u1) ++ ((92 :: 117 :: hex4 u2) ++ r))
      = (parseStrBody fuel r).map
          (fun p => ((0x10000 + (u1 - 0xd800) * 0x400 + (u2 - 0xdc00)) :: p.1, p.2)) := by
  show parseStrBody (fuel + 1)
      (92 :: 117 :: toHexDigitCp (u1 / 4096 % 16) :: toHexDigitCp (u1 / 256 % 16)
        :: toHexDigitCp (u1 / 16 % 16) :: toHexDigitCp (u1 % 16)
        :: ((92 :: 117 :: hex4 u2) ++ r)) = _
  rw [parseStrBody_uStep, hex4Val_digits u1 (by omega)]
  show (match decodeU u1 ((92 :: 117 :: hex4 u2) ++ r) with
        | none => none
        | some (ch, r2) =>
            (parseStrBody fuel r2).map (fun p : PyStr × PyStr => (ch :: p.1, p.2))) = _
  rw [decodeU_pair u1 u2 h1 h2 r]

/-- Parsing a dumped BMP escape yields the code point back. -/
theorem parseStrBody_uEscape (u : Nat) (hu : u < 0x10000)
    (hns : ¬(0xd800 ≤ u ∧ u ≤ 0xdbff)) (fuel : Nat) (r : PyStr) :
    parseStrBody (fuel + 1) ((92 :: 117 :: hex4 u) ++ r)
      = (parseStrBody fuel r).map (fun p => (u :: p.1, p.2)) := by
  show parseStrBody (fuel + 1)
      (92 :: 117 :: toHexDigitCp (u / 4096 % 16) :: toHexDigitCp (u / 256 % 16)
        :: toHexDigitCp (u / 16 % 16) :: toHexDigitCp (u % 16) :: r) = _
  rw [parseStrBody_uStep, hex4Val_digits u hu]
  show (match decodeU u r with
        | none => none
        | some (ch, r2) =>
            (parseStrBody fuel r2).map (fun p : PyStr × PyStr => (ch :: p.1, p.2))) = _
  rw [decodeU_scalar u hns r]

/-- Parsing one escaped scalar-value character undoes the escaping, costing
one unit of fuel. -/
theorem parseStrBody_escape (c : Nat) (hc : wfChar c = true) (fuel : Nat) (r : PyStr) :
    parseStrBody (fuel + 1) (escapeChar c ++ r)
      = (parseStrBody fuel r).map (fun p => (c :: p.1, p.2)) := by
  have hw : c < 0xd800 ∨ (0xdfff < c ∧ c ≤ 0x10ffff) := by
    rw [wfChar] at hc
    simp only [Bool.or_eq_true, Bool.and_eq_true, decide_eq_true_eq] at hc
    omega
  rw [escapeChar]
  split_ifs with h1 h2 h3 h4 h5 h6 h7 h8 h9
  · subst h1; rfl
  · subst h2; rfl
  · subst h3; rfl
  · subst h4; rfl
  · subst h5; rfl
  · subst h6; rfl
  · subst h7; rfl
  · exact parseStrBody_plain fuel c r h1 h2 (by omega)
  · exact parseStrBody_uEscape c h9 (by omega) fuel r
  · show parseStrBody (fuel + 1)
        (((92 :: 117 :: hex4 (0xd800 + (c - 0x10000) / 0x400)) ++
          (92 :: 117 :: hex4 (0xdc00 + (c - 0x10000) % 0x400))) ++ r) = _
    rw [List.append_assoc,
      parseStrBody_pair (0xd800 + (c - 0x10000) / 0x400) (0xdc00 + (c - 0x10000) % 0x400)
        (by constructor
            · omega
            · have hd : (c - 0x10000) / 0x400 ≤ 0xfffff / 0x400 :=
                Nat.div_le_div_right (by omega)
              omega)
        (by have := Nat.mod_lt (c - 0x10000) (show 0 < 0x400 by omega); omega) fuel r,
      show 0x10000 + ((0xd800 + (c - 0x10000) / 0x400) - 0xd800) * 0x400 +
          ((0xdc00 + (c - 0x10000) % 0x400) - 0xdc00) = c by omega]

/-- Parsing a fully escaped scalar-value string stops at the closing quote. -/
theorem parseStrBody_flat (s : PyStr) : ∀ (fuel : Nat) (rest : PyStr),
    wfStr s = true → (s.flatMap escapeChar).length < fuel →
    parseStrBody fuel (s.flatMap escapeChar ++ 34 :: rest) = some (s, rest) := by
  induction s with
  | nil =>
      intro fuel rest _ hf
      match fuel with
      | f + 1 => rfl
  | cons c cs ih =>
      intro fuel rest hwf hf
      have hc : wfChar c = true ∧ wfStr cs = true := by
        rw [wfStr] at hwf
        simp only [List.all_cons, Bool.and_eq_true] at hwf
        exact ⟨hwf.1, hwf.2⟩
      match fuel with
      | f + 1 =>
          rw [List.flatMap_cons, List.append_assoc, parseStrBody_escape c hc.1 f _]
          have hlen : (cs.flatMap escapeChar).length < f := by
            have h1 := escapeChar_length_pos c
            rw [List.flatMap_cons, List.length_append] at hf
            omega
          rw [ih f rest hc.2 hlen]
          rfl

/-- The string reader (with its own fuel) inverts the string dumper. -/
theorem parseStr_dump (s : PyStr) (rest : PyStr) (hwf : wfStr s = true) :
    parseStr (s.flatMap escapeChar ++ 34 :: rest) = some (s, rest) := by
  rw [parseStr]
  exact parseStrBody_flat s _ rest hwf
    (by rw [List.length_append, List.length_cons]; omega)

/-- The head of an integer's characters: a minus sign or a digit. -/
theorem intChars_head (i : Int) :
    ∃ c t, intChars i = c :: t ∧ (c = 45 ∨ (48 ≤ c ∧ c ≤ 57)) := by
  rw [intChars]
  by_cases hi : i < 0
  · exact ⟨45, natDigits i.natAbs, by rw [if_pos hi], Or.inl rfl⟩
  · rw [if_neg hi]
    obtain ⟨c, t, hct⟩ : ∃ c t, natDigits i.natAbs = c :: t := by
      cases h : natDigits i.natAbs with
      | nil => exact absurd h (natDigits_ne_nil i.natAbs)
      | cons c t => exact ⟨c, t, rfl⟩
    exact ⟨c, t, hct, Or.inr (natDigits_digit i.natAbs c (by rw [hct]; simp))⟩

/-- Every dumped value starts with a character that is not JSON whitespace
and closes nothing (`}`, `]`) nor separates (`,`, `:`). -/
theorem dumps_head (x : Json) :
    ∃ c t, dumps x = c :: t ∧ isJsonWs c = false ∧
      ¬(c = 125) ∧ ¬(c = 93) ∧ ¬(c = 44) ∧ ¬(c = 58) := by
  cases x with
  | null => exact ⟨110, _, rfl, by decide, by decide, by decide, by decide, by decide⟩
  | bool b =>
      cases b with
      | true => exact ⟨116, _, rfl, by decide, by decide, by decide, by decide, by decide⟩
      | false => exact ⟨102, _, rfl, by decide, by decide, by decide, by decide, by decide⟩
  | num n =>
      obtain ⟨c, t, hct, hc⟩ := intChars_head n
      have hfacts : isJsonWs c = false ∧ ¬(c = 125) ∧ ¬(c = 93) ∧ ¬(c = 44) ∧ ¬(c = 58) := by
        rcases hc with h | h
        · subst h
          exact ⟨by decide, by decide, by decide, by decide, by decide⟩
        · refine ⟨?_, by omega, by omega, by omega, by omega⟩
          simp only [isJsonWs, Bool.or_eq_false_iff, decide_eq_false_iff_not]
          omega
      exact ⟨c, t, hct, hfacts.1, hfacts.2.1, hfacts.2.2.1, hfacts.2.2.2.1, hfacts.2.2.2.2⟩
  | str s => exact ⟨34, _, rfl, by decide, by decide, by decide, by decide, by decide⟩
  | arr es => exact ⟨91, _, rfl, by decide, by decide, by decide, by decide, by decide⟩
  | obj ms => exact ⟨123, _, rfl, by decide, by decide, by decide, by decide, by decide⟩

/-- A dumped value is never empty. -/
theorem dumps_ne_nil (x : Json) : dumps x ≠ [] := by
  obtain ⟨c, t, hct, _⟩ := dumps_head x
  rw [hct]
  simp

/-- `skipJsonWs` does not move over a dumped value. -/
theorem skipJsonWs_dumps (x : Json) (r : PyStr) :
    skipJsonWs (dumps x ++ r) = dumps x ++ r := by
  obtain ⟨c, t, hct, hws, _⟩ := dumps_head x
  rw [hct]
  show skipJsonWs (c :: (t ++ r)) = c :: (t ++ r)
  simp [skipJsonWs, hws]

/-! ### Python dict reconstruction is the identity on distinct keys -/

/-- `keyMem` over an append. -/
theorem keyMem_append (k : PyStr) (a b : List (PyStr × Json)) :
    keyMem k (a ++ b) = (keyMem k a || keyMem k b) := by
  induction a with
  | nil => simp [keyMem]
  | cons p t ih =>
      obtain ⟨k0, v0⟩ := p
      simp [keyMem, ih, Bool.or_assoc]

/-- `keyMem` is the membership of the key among the first components. -/
theorem keyMem_false_iff (k : PyStr) (m : List (PyStr × Json)) :
    keyMem k m = false ↔ ∀ p ∈ m, ¬(p.1 = k) := by
  induction m with
  | nil => simp [keyMem]
  | cons p t ih =>
      obtain ⟨k0, v0⟩ := p
      simp only [keyMem, Bool.or_eq_false_iff, decide_eq_false_iff_not, List.mem_cons]
      constructor
      · rintro ⟨h1, h2⟩ q hq
        rcases hq with rfl | hq
        · simpa using h1
        · exact (ih.mp h2) q hq
      · intro h
        refine ⟨by simpa using h (k0, v0) (Or.inl rfl), ih.mpr fun q hq => h q (Or.inr hq)⟩

/-- Updating an absent key appends the pair. -/
theorem dictSet_notMem (m : List (PyStr × Json)) (k : PyStr) (v : Json)
    (h : keyMem k m = false) : dictSet m k v = m ++ [(k, v)] := by
  induction m with
  | nil => rfl
  | cons p t ih =>
      obtain ⟨k0, v0⟩ := p
      simp only [keyMem, Bool.or_eq_false_iff, decide_eq_false_iff_not] at h
      simp [dictSet, h.1, ih h.2]

/-- Folding distinct pairs into a dict appends them all. -/
theorem pyFold_append (ms : List (PyStr × Json)) : ∀ (acc : List (PyStr × Json)),
    (∀ p ∈ ms, keyMem p.1 acc = false) → wfPairs ms = true →
    List.foldl (fun m p => dictSet m p.1 p.2) acc ms = acc ++ ms := by
  induction ms with
  | nil => intro acc _ _; simp
  | cons p t ih =>
      intro acc hacc hwf
      obtain ⟨k, v⟩ := p
      rw [wfPairs] at hwf
      simp only [Bool.and_eq_true, Bool.not_eq_true'] at hwf
      obtain ⟨⟨⟨_, hkt⟩, _⟩, hwt⟩ := hwf
      have hstep : dictSet acc k v = acc ++ [(k, v)] :=
        dictSet_notMem acc k v (hacc (k, v) (by simp))
      simp only [List.foldl_cons, hstep]
      rw [ih (acc ++ [(k, v)])
        (fun q hq => by
          rw [keyMem_append]
          have h1 : keyMem q.1 acc = false := hacc q (by simp [hq])
          have h2 : keyMem q.1 [(k, v)] = false := by
            have hne : ¬(q.1 = k) := (keyMem_false_iff k t).mp hkt q hq
            simp only [keyMem, Bool.or_eq_false_iff, decide_eq_false_iff_not]
            exact ⟨fun hkq => hne hkq.symm, trivial⟩
          rw [h1, h2]
          rfl)
        hwt]
      simp

/-- On a well-formed member list, `dict(pairs)` is the identity. -/
theorem pyDictOf_wf (ms : List (PyStr × Json)) (h : wfPairs ms = true) :
    pyDictOf ms = ms := by
  rw [pyDictOf, pyFold_append ms [] (fun p _ => rfl) h]
  rfl

/-! ### The codec round-trip: `loads (dumps x) = x` -/

/-- One parse step on an opening quote (definitional). -/
theorem parseVal_strStep (tol : Bool) (fuel : Nat) (r : PyStr) :
    parseVal tol (fuel + 1) (34 :: r)
      = (parseStr r).map (fun p => (Json.str p.1, p.2)) := rfl

/-- One parse step on an opening brace (definitional). -/
theorem parseVal_objStep (tol : Bool) (fuel : Nat) (r : PyStr) :
    parseVal tol (fuel + 1) (123 :: r)
      = (match skipJsonWs r with
         | 125 :: r2 => some (Json.obj [], r2)
         | r1 => (parsePairs tol fuel r1).map (fun p => (Json.obj (pyDictOf p.1), p.2))) := rfl

/-- One parse step on an opening bracket (definitional). -/
theorem parseVal_arrStep (tol : Bool) (fuel : Nat) (r : PyStr) :
    parseVal tol (fuel + 1) (91 :: r)
      = (match skipJsonWs r with
         | 93 :: r2 => some (Json.arr [], r2)
         | r1 => (parseItems tol fuel r1).map (fun p => (Json.arr p.1, p.2))) := rfl

/-- Heads that start no structure or literal dispatch to the number reader. -/
theorem parseVal_numDispatch (tol : Bool) (fuel c : Nat) (r : PyStr)
    (h34 : ¬(c = 34)) (h123 : ¬(c = 123)) (h91 : ¬(c = 91))
    (h110 : ¬(c = 110)) (h116 : ¬(c = 116)) (h102 : ¬(c = 102)) :
    parseVal tol (fuel + 1) (c :: r) = parseNumber (c :: r) := by
  simp only [parseVal]
  rw [if_neg h34, if_neg h123, if_neg h91, if_neg h110, if_neg h116, if_neg h102]

/-- One member-list step (definitional). -/
theorem parsePairs_step (tol : Bool) (fuel : Nat) (r : PyStr) :
    parsePairs tol (fuel + 1) (34 :: r)
      = (match parseStr r with
         | none => none
         | some (k, r1) =>
             (match skipJsonWs r1 with
              | 58 :: r2 =>
                  (match parseVal tol fuel (skipJsonWs r2) with
                   | none => none
                   | some (v, r3) =>
                       (match skipJsonWs r3 with
                        | 44 :: r4 =>
                            (match skipJsonWs r4 with
                             | 125 :: r6 => if tol then some ([(k, v)], r6) else none
                             | r5 =>
                                 (match parsePairs tol fuel r5 with
                                  | some (ps, r6) => some ((k, v) :: ps, r6)
                                  | none => none))
                        | 125 :: r4 => some ([(k, v)], r4)
                        | _ => none))
              | _ => none)) := rfl

/-- One element-list step (definitional). -/
theorem parseItems_step (tol : Bool) (fuel : Nat) (s : PyStr) :
    parseItems tol (fuel + 1) s
      = (match parseVal tol fuel s with
         | none => none
         | some (v, r) =>
             match skipJsonWs r with
             | 44 :: r2 =>
                 (match skipJsonWs r2 with
                  | 93 :: r4 => if tol then some ([v], r4) else none
                  | r3 =>
                      match parseItems tol fuel r3 with
                      | some (vs, r4) => some (v :: vs, r4)
                      | none => none)
             | 93 :: r2 => some ([v], r2)
             | _ => none) := rfl

/-- A separator-or-close continuation starts with a delimiter. -/
theorem jsonDelim_itemsSep (es : List Json) (rest : PyStr) :
    jsonDelim (dumpItemsSep es ++ 93 :: rest) = true := by
  cases es <;> rfl

/-- A member separator-or-close continuation starts with a delimiter. -/
theorem jsonDelim_pairsSep (ms : List (PyStr × Json)) (rest : PyStr) :
    jsonDelim (dumpPairsSep ms ++ 125 :: rest) = true := by
  cases ms with
  | nil => rfl
  | cons p t => obtain ⟨k, v⟩ := p; rfl

mutual
/-- Parsing a dumped well-formed value recovers it exactly, leaving the
remainder, whenever the remainder starts with a JSON delimiter and the fuel
exceeds the dumped length. -/
theorem rt_val : ∀ (x : Json) (tol : Bool) (fuel : Nat) (rest : PyStr),
    wfJson x = true → (dumps x).length < fuel → jsonDelim rest = true →
    parseVal tol fuel (dumps x ++ rest) = some (x, rest)
  | x, tol, 0, rest, _, hfuel, _ => by
      have := dumps_ne_nil x
      have : 0 < (dumps x).length := List.length_pos.mpr this
      omega
  | .null, tol, fuel + 1, rest, _, _, _ => rfl
  | .bool true, tol, fuel + 1, rest, _, _, _ => rfl
  | .bool false, tol, fuel + 1, rest, _, _, _ => rfl
  | .num n, tol, fuel + 1, rest, _, _, hrest => by
      obtain ⟨c, t, hct, hc⟩ := intChars_head n
      have harg : dumps (Json.num n) ++ rest = c :: (t ++ rest) := by
        show intChars n ++ rest = _
        rw [hct]
        rfl
      have hfacts : ¬(c = 34) ∧ ¬(c = 123) ∧ ¬(c = 91) ∧ ¬(c = 110) ∧ ¬(c = 116) ∧ ¬(c = 102) := by
        rcases hc with h | h <;> omega
      rw [harg, parseVal_numDispatch tol fuel c (t ++ rest)
          hfacts.1 hfacts.2.1 hfacts.2.2.1 hfacts.2.2.2.1 hfacts.2.2.2.2.1 hfacts.2.2.2.2.2,
        show c :: (t ++ rest) = intChars n ++ rest from by rw [hct]; rfl]
      exact parseNumber_intChars n rest hrest
  | .str s, tol, fuel + 1, rest, hwf, _, _ => by
      have harg : dumps (Json.str s) ++ rest = 34 :: (s.flatMap escapeChar ++ 34 :: rest) := by
        show (34 :: (s.flatMap escapeChar ++ [34])) ++ rest = _
        simp [List.append_assoc]
      rw [harg, parseVal_strStep, parseStr_dump s rest hwf]
      rfl
  | .arr [], tol, fuel + 1, rest, _, _, _ => rfl
  | .arr (e :: es), tol, fuel + 1, rest, hwf, hfuel, _ => by
      have harr : dumps (Json.arr (e :: es)) ++ rest
          = 91 :: (dumpItems (e :: es) ++ 93 :: rest) := by
        show (91 :: (dumpItems (e :: es) ++ [93])) ++ rest = _
        simp [List.append_assoc]
      rw [harr, parseVal_arrStep]
      obtain ⟨c, t, hct, hws, h125, h93, _⟩ := dumps_head e
      have hshape : dumpItems (e :: es) ++ 93 :: rest
          = c :: ((t ++ dumpItemsSep es) ++ 93 :: rest) := by
        show (dumps e ++ dumpItemsSep es) ++ 93 :: rest = _
        rw [hct]
        simp [List.append_assoc]
      have hskip : skipJsonWs (dumpItems (e :: es) ++ 93 :: rest)
          = dumpItems (e :: es) ++ 93 :: rest := by
        rw [hshape]
        show skipJsonWs (c :: _) = _
        simp [skipJsonWs, hws]
      rw [hskip, hshape]
      have hfuel2 : (dumpItems (e :: es)).length + 1 < fuel := by
        have h1 : (dumps (Json.arr (e :: es))).length = (dumpItems (e :: es)).length + 2 := by
          show (91 :: (dumpItems (e :: es) ++ [93])).length = _
          rw [List.length_cons, List.length_append]
          rfl
        omega
      split
      · rename_i r2 heq
        exact absurd ((List.cons.inj heq).1) h93
      · rw [← hshape, rt_items e es tol fuel rest hwf hfuel2]
        rfl
  | .obj [], tol, fuel + 1, rest, _, _, _ => rfl
  | .obj ((k, v) :: ms), tol, fuel + 1, rest, hwf, hfuel, _ => by
      have hobj : dumps (Json.obj ((k, v) :: ms)) ++ rest
          = 123 :: (dumpPairs ((k, v) :: ms) ++ 125 :: rest) := by
        show (123 :: (dumpPairs ((k, v) :: ms) ++ [125])) ++ rest = _
        simp [List.append_assoc]
      rw [hobj, parseVal_objStep]
      have hfuel2 : (dumpPairs ((k, v) :: ms)).length + 1 < fuel := by
        have h1 : (dumps (Json.obj ((k, v) :: ms))).length
            = (dumpPairs ((k, v) :: ms)).length + 2 := by
          show (123 :: (dumpPairs ((k, v) :: ms) ++ [125])).length = _
          rw [List.length_cons, List.length_append]
          rfl
        omega
      show (parsePairs tol fuel (dumpPairs ((k, v) :: ms) ++ 125 :: rest)).map
          (fun p => (Json.obj (pyDictOf p.1), p.2)) = some (Json.obj ((k, v) :: ms), rest)
      rw [rt_pairs (k, v) ms tol fuel rest hwf hfuel2]
      show some (Json.obj (pyDictOf ((k, v) :: ms)), rest) = _
      rw [pyDictOf_wf _ hwf]
  termination_by x _ _ _ _ _ _ => sizeOf x
  decreasing_by all_goals (simp_wf; omega)
/-- Parsing a dumped nonempty element list up to the closing bracket. -/
theorem rt_items : ∀ (e : Json) (es : List Json) (tol : Bool) (fuel : Nat) (rest : PyStr),
    wfItems (e :: es) = true → (dumpItems (e :: es)).length + 1 < fuel →
    parseItems tol fuel (dumpItems (e :: es) ++ 93 :: rest) = some (e :: es, rest)
  | e, es, tol, 0, rest, _, hfuel => by omega
  | e, [], tol, fuel + 1, rest, hwf, hfuel => by
      have hwf2 : wfJson e = true := by
        have : (wfJson e && wfItems ([] : List Json)) = true := hwf
        simp only [Bool.and_eq_true] at this
        exact this.1
      have hfuelE : (dumps e).length < fuel := by
        have h1 : (dumpItems [e]).length = (dumps e).length := by
          show (dumps e ++ dumpItemsSep []).length = _
          rw [List.length_append]
          rfl
        omega
      have harg : dumpItems [e] ++ 93 :: rest = dumps e ++ (dumpItemsSep [] ++ 93 :: rest) := by
        show (dumps e ++ dumpItemsSep []) ++ 93 :: rest = _
        simp [List.append_assoc]
      rw [parseItems_step, harg,
        rt_val e tol fuel (dumpItemsSep [] ++ 93 :: rest) hwf2 hfuelE
          (jsonDelim_itemsSep [] rest)]
      rfl
  | e, e2 :: t2, tol, fuel + 1, rest, hwf, hfuel => by
      have hwf2 : wfJson e = true ∧ wfItems (e2 :: t2) = true := by
        have : (wfJson e && wfItems (e2 :: t2)) = true := hwf
        simpa using this
      have hlen1 : (dumpItems (e :: e2 :: t2)).length
          = (dumps e).length + 2 + (dumps e2 ++ dumpItemsSep t2).length := by
        show (dumps e ++ (44 :: 32 :: (dumps e2 ++ dumpItemsSep t2))).length = _
        rw [List.length_append]
        show _ + ((dumps e2 ++ dumpItemsSep t2).length + 2) = _
        omega
      have hlen2 : (dumpItems (e2 :: t2)).length = (dumps e2 ++ dumpItemsSep t2).length := rfl
      have hfuelE : (dumps e).length < fuel := by omega
      have harg : dumpItems (e :: e2 :: t2) ++ 93 :: rest
          = dumps e ++ (dumpItemsSep (e2 :: t2) ++ 93 :: rest) := by
        show (dumps e ++ dumpItemsSep (e2 :: t2)) ++ 93 :: rest = _
        simp [List.append_assoc]
      rw [parseItems_step, harg,
        rt_val e tol fuel (dumpItemsSep (e2 :: t2) ++ 93 :: rest) hwf2.1 hfuelE
          (jsonDelim_itemsSep (e2 :: t2) rest)]
      dsimp only
      rw [show dumpItemsSep (e2 :: t2) ++ 93 :: rest
          = 44 :: 32 :: (dumps e2 ++ (dumpItemsSep t2 ++ 93 :: rest)) from by
        show (44 :: 32 :: (dumps e2 ++ dumpItemsSep t2)) ++ 93 :: rest = _
        simp [List.append_assoc]]
      rw [show skipJsonWs (44 :: 32 :: (dumps e2 ++ (dumpItemsSep t2 ++ 93 :: rest)))
          = 44 :: (32 :: (dumps e2 ++ (dumpItemsSep t2 ++ 93 :: rest))) from rfl]
      dsimp only
      rw [show skipJsonWs (32 :: (dumps e2 ++ (dumpItemsSep t2 ++ 93 :: rest)))
          = skipJsonWs (dumps e2 ++ (dumpItemsSep t2 ++ 93 :: rest)) from rfl,
        skipJsonWs_dumps]
      obtain ⟨c, t, hct, hws, h125, h93, _⟩ := dumps_head e2
      have hshape : dumps e2 ++ (dumpItemsSep t2 ++ 93 :: rest)
          = c :: (t ++ (dumpItemsSep t2 ++ 93 :: rest)) := by
        rw [hct]
        rfl
      rw [hshape]
      have hback : c :: (t ++ (dumpItemsSep t2 ++ 93 :: rest))
          = dumpItems (e2 :: t2) ++ 93 :: rest := by
        rw [← hshape]
        show _ = (dumps e2 ++ dumpItemsSep t2) ++ 93 :: rest
        simp [List.append_assoc]
      have hfuelT : (dumpItems (e2 :: t2)).length + 1 < fuel := by omega
      split
      · rename_i r4 heq
        exact absurd ((List.cons.inj heq).1) h93
      · rw [hback, rt_items e2 t2 tol fuel rest hwf2.2 hfuelT]
  termination_by e es _ _ _ _ _ => sizeOf e + sizeOf es + 1
  decreasing_by all_goals (simp_wf; omega)
/-- Parsing a dumped nonempty member list up to the closing brace. -/
theorem rt_pairs : ∀ (kv : PyStr × Json) (ms : List (PyStr × Json)) (tol : Bool)
    (fuel : Nat) (rest : PyStr),
    wfPairs (kv :: ms) = true → (dumpPairs (kv :: ms)).length + 1 < fuel →
    parsePairs tol fuel (dumpPairs (kv :: ms) ++ 125 :: rest) = some (kv :: ms, rest)
  | kv, ms, tol, 0, rest, _, hfuel => by omega
  | (k, v), [], tol, fuel + 1, rest, hwf, hfuel => by
      have hwf2 : wfStr k = true ∧ wfJson v = true := by
        have : (wfStr k && !(keyMem k ([] : List (PyStr × Json))) && wfJson v
            && wfPairs ([] : List (PyStr × Json))) = true := hwf
        simp only [Bool.and_eq_true] at this
        exact ⟨this.1.1.1, this.1.2⟩
      have hlen : (dumpPairs [(k, v)]).length
          = (dumpStr k).length + 2 + (dumps v).length := by
        show (dumpStr k ++ 58 :: 32 :: (dumps v ++ dumpPairsSep [])).length = _
        rw [List.length_append]
        show _ + ((dumps v ++ dumpPairsSep []).length + 2) = _
        rw [List.length_append]
        have h0 : (dumpPairsSep ([] : List (PyStr × Json))).length = 0 := rfl
        omega
      have hfuelV : (dumps v).length < fuel := by omega
      have harg : dumpPairs [(k, v)] ++ 125 :: rest
          = 34 :: (k.flatMap escapeChar ++ 34 ::
              (58 :: 32 :: (dumps v ++ (dumpPairsSep ([] : List (PyStr × Json)) ++ 125 :: rest)))) := by
        show (dumpStr k ++ 58 :: 32 :: (dumps v ++ dumpPairsSep [])) ++ 125 :: rest = _
        rw [dumpStr]
        simp [List.append_assoc, dumpPairsSep]
      rw [harg, parsePairs_step, parseStr_dump k _ hwf2.1]
      dsimp only
      rw [show skipJsonWs (58 :: 32 :: (dumps v ++ (dumpPairsSep ([] : List (PyStr × Json)) ++ 125 :: rest)))
          = 58 :: (32 :: (dumps v ++ (dumpPairsSep ([] : List (PyStr × Json)) ++ 125 :: rest))) from rfl]
      dsimp only
      rw [show skipJsonWs (32 :: (dumps v ++ (dumpPairsSep ([] : List (PyStr × Json)) ++ 125 :: rest)))
          = skipJsonWs (dumps v ++ (dumpPairsSep ([] : List (PyStr × Json)) ++ 125 :: rest)) from rfl,
        skipJsonWs_dumps,
        rt_val v tol fuel (dumpPairsSep ([] : List (PyStr × Json)) ++ 125 :: rest) hwf2.2 hfuelV
          (jsonDelim_pairsSep [] rest)]
      rfl
  | (k, v), (k2, v2) :: t2, tol, fuel + 1, rest, hwf, hfuel => by
      have hwf2 : wfStr k = true ∧ wfJson v = true ∧ wfPairs ((k2, v2) :: t2) = true := by
        have : (wfStr k && !(keyMem k ((k2, v2) :: t2)) && wfJson v
            && wfPairs ((k2, v2) :: t2)) = true := hwf
        simp only [Bool.and_eq_true] at this
        exact ⟨this.1.1.1, this.1.2, this.2⟩
      have hlenSep : (dumpPairsSep ((k2, v2) :: t2)).length
          = (dumpPairs ((k2, v2) :: t2)).length + 2 := by
        show (44 :: 32 :: (dumpStr k2 ++ 58 :: 32 :: (dumps v2 ++ dumpPairsSep t2))).length
            = (dumpStr k2 ++ 58 :: 32 :: (dumps v2 ++ dumpPairsSep t2)).length + 2
        rfl
      have hlen : (dumpPairs ((k, v) :: (k2, v2) :: t2)).length
          = (dumpStr k).length + 2 + (dumps v).length
            + (dumpPairsSep ((k2, v2) :: t2)).length := by
        show (dumpStr k ++ 58 :: 32 :: (dumps v ++ dumpPairsSep ((k2, v2) :: t2))).length = _
        rw [List.length_append]
        show _ + ((dumps v ++ dumpPairsSep ((k2, v2) :: t2)).length + 2) = _
        rw [List.length_append]
        omega
      have hfuelV : (dumps v).length < fuel := by omega
      have hfuelT : (dumpPairs ((k2, v2) :: t2)).length + 1 < fuel := by omega
      have harg : dumpPairs ((k, v) :: (k2, v2) :: t2) ++ 125 :: rest
          = 34 :: (k.flatMap escapeChar ++ 34 ::
              (58 :: 32 :: (dumps v ++ (dumpPairsSep ((k2, v2) :: t2) ++ 125 :: rest)))) := by
        show (dumpStr k ++ 58 :: 32 :: (dumps v ++ dumpPairsSep ((k2, v2) :: t2))) ++ 125 :: rest = _
        rw [dumpStr]
        simp [List.append_assoc]
      rw [harg, parsePairs_step, parseStr_dump k _ hwf2.1]
      dsimp only
      rw [show skipJsonWs (58 :: 32 :: (dumps v ++ (dumpPairsSep ((k2, v2) :: t2) ++ 125 :: rest)))
          = 58 :: (32 :: (dumps v ++ (dumpPairsSep ((k2, v2) :: t2) ++ 125 :: rest))) from rfl]
      dsimp only
      rw [show skipJsonWs (32 :: (dumps v ++ (dumpPairsSep ((k2, v2) :: t2) ++ 125 :: rest)))
          = skipJsonWs (dumps v ++ (dumpPairsSep ((k2, v2) :: t2) ++ 125 :: rest)) from rfl,
        skipJsonWs_dumps,
        rt_val v tol fuel (dumpPairsSep ((k2, v2) :: t2) ++ 125 :: rest) hwf2.2.1 hfuelV
          (jsonDelim_pairsSep ((k2, v2) :: t2) rest)]
      dsimp only
      rw [show dumpPairsSep ((k2, v2) :: t2) ++ 125 :: rest
          = 44 :: 32 :: (dumpPairs ((k2, v2) :: t2) ++ 125 :: rest) from by
        show (44 :: 32 :: (dumpStr k2 ++ 58 :: 32 :: (dumps v2 ++ dumpPairsSep t2)))
            ++ 125 :: rest = _
        simp [List.append_assoc, dumpPairs]]
      rw [show skipJsonWs (44 :: 32 :: (dumpPairs ((k2, v2) :: t2) ++ 125 :: rest))
          = 44 :: (32 :: (dumpPairs ((k2, v2) :: t2) ++ 125 :: rest)) from rfl]
      dsimp only
      rw [show skipJsonWs (32 :: (dumpPairs ((k2, v2) :: t2) ++ 125 :: rest))
          = skipJsonWs (dumpPairs ((k2, v2) :: t2) ++ 125 :: rest) from rfl]
      rw [show skipJsonWs (dumpPairs ((k2, v2) :: t2) ++ 125 :: rest)
          = dumpPairs ((k2, v2) :: t2) ++ 125 :: rest from by
        show skipJsonWs ((dumpStr k2 ++ _) ++ _) = _
        rw [dumpStr]
        rfl]
      show (match parsePairs tol fuel (dumpPairs ((k2, v2) :: t2) ++ 125 :: rest) with
            | some (ps, r6) => some ((k, v) :: ps, r6)
            | none => none) = some ((k, v) :: (k2, v2) :: t2, rest)
      rw [rt_pairs (k2, v2) t2 tol fuel rest hwf2.2.2 hfuelT]
  termination_by kv ms _ _ _ _ _ => sizeOf kv + sizeOf ms + 1
  decreasing_by all_goals (simp_wf; omega)
end

/-- Decoding a dumped well-formed value recovers it, for either parser. -/
theorem loadsWith_dumps (tol : Bool) (x : Json) (h : wfJson x = true) :
    loadsWith tol (dumps x) = some x := by
  rw [loadsWith]
  have hskip : skipJsonWs (dumps x) = dumps x := by
    have h1 := skipJsonWs_dumps x []
    simpa using h1
  rw [hskip]
  have h2 := rt_val x tol ((dumps x).length + 1) [] h (by omega) rfl
  rw [List.append_nil] at h2
  rw [h2]
  rfl

/-- The reverse of a dumped object starts with the closing brace. -/
theorem dumps_obj_reverse (m : List (PyStr × Json)) :
    (dumps (Json.obj m)).reverse = 125 :: ((dumpPairs m).reverse ++ [123]) := by
  show (123 :: (dumpPairs m ++ [125])).reverse = _
  rw [List.reverse_cons, List.reverse_append]
  rfl

/-- Without a fence match, extraction slices from the first `{` to the last
`}`; on a dumped object those are the first and last characters. -/
theorem extract_dumps_obj (m : List (PyStr × Json))
    (hfence : fenceSearch (dumps (Json.obj m)) = none) :
    extract_json_block (dumps (Json.obj m)) = dumps (Json.obj m) := by
  rw [extract_json_block, hfence]
  have hfind : (dumps (Json.obj m)).findIdx? (fun c => c = 123) = some 0 := by
    show (123 :: (dumpPairs m ++ [125])).findIdx? (fun c => c = 123) = some 0
    rfl
  have hrfind : (dumps (Json.obj m)).reverse.findIdx? (fun c => c = 125) = some 0 := by
    rw [dumps_obj_reverse]
    rfl
  rw [hfind, hrfind]
  dsimp only
  have hlen : 2 ≤ (dumps (Json.obj m)).length := by
    show 2 ≤ (123 :: (dumpPairs m ++ [125])).length
    rw [List.length_cons, List.length_append]
    simp
  rw [if_pos (by omega)]
  show ((dumps (Json.obj m)).drop 0).take ((dumps (Json.obj m)).length - 1 - 0 + 1 - 0)
      = dumps (Json.obj m)
  rw [List.drop_zero]
  have : (dumps (Json.obj m)).length - 1 - 0 + 1 - 0 = (dumps (Json.obj m)).length := by omega
  rw [this, List.take_length]

/-- Stripping does not change a dumped object. -/
theorem pyStrip_dumps_obj (m : List (PyStr × Json)) :
    pyStrip (dumps (Json.obj m)) = dumps (Json.obj m) := by
  rw [pyStrip]
  have h1 : dropLeadingWs (dumps (Json.obj m)) = dumps (Json.obj m) := by
    show dropLeadingWs (123 :: (dumpPairs m ++ [125])) = _
    rfl
  rw [h1, dumps_obj_reverse]
  show (dropLeadingWs (125 :: ((dumpPairs m).reverse ++ [123]))).reverse = _
  rw [show dropLeadingWs (125 :: ((dumpPairs m).reverse ++ [123]))
      = 125 :: ((dumpPairs m).reverse ++ [123]) from rfl]
  rw [← dumps_obj_reverse, List.reverse_reverse]

/-- The fallback normalizer inverts `json.dumps` on a well-formed object
whose serialization the fence pattern does not match. -/
theorem parse_json_from_llm_dumps_obj (m : List (PyStr × Json)) (h : wfPairs m = true)
    (hfence : fenceSearch (dumps (Json.obj m)) = none) :
    parse_json_from_llm (dumps (Json.obj m)) = Json.obj m := by
  rw [parse_json_from_llm, if_neg (dumps_ne_nil _)]
  simp only [planB, extract_dumps_obj m hfence, pyStrip_dumps_obj m]
  rw [show json_loads (dumps (Json.obj m)) = loadsWith false (dumps (Json.obj m)) from rfl,
    loadsWith_dumps false (Json.obj m) h]

/-- Every result of the fallback normalizer is a dict. -/
theorem parse_json_from_llm_isObj (raw : PyStr) :
    ∃ m, parse_json_from_llm raw = Json.obj m := by
  rw [parse_json_from_llm]
  by_cases hr : raw = []
  · exact ⟨[], by rw [if_pos hr]⟩
  · rw [if_neg hr]
    rcases hres : json_loads (pyStrip (extract_json_block raw)) with _ | v
    · exact ⟨[], by simp only [planB, hres]⟩
    · cases v with
      | null => exact ⟨[], by simp only [planB, hres]⟩
      | bool b => exact ⟨[], by simp only [planB, hres]⟩
      | num n => exact ⟨[], by simp only [planB, hres]⟩
      | str s => exact ⟨[], by simp only [planB, hres]⟩
      | arr es => exact ⟨[], by simp only [planB, hres]⟩
      | obj ms => exact ⟨ms, by simp only [planB, hres]⟩

/-- Every result of the repair-equipped normalizer is a dict, whatever the
external library does. -/
theorem parse_json_from_llm_repair_isObj (repair : PyStr → Option Json) (raw : PyStr) :
    ∃ m, parse_json_from_llm_repair repair raw = Json.obj m := by
  rw [parse_json_from_llm_repair]
  by_cases hr : raw = []
  · exact ⟨[], by rw [if_pos hr]⟩
  · rw [if_neg hr]
    rcases hrep : repair raw with _ | v
    · obtain ⟨m, hm⟩ := parse_json_from_llm_isObj raw
      rw [parse_json_from_llm, if_neg hr] at hm
      exact ⟨m, by dsimp only; exact hm⟩
    · cases v with
      | null => exact ⟨[], rfl⟩
      | bool b => exact ⟨[], rfl⟩
      | num n => exact ⟨[], rfl⟩
      | str s => exact ⟨[], rfl⟩
      | obj ms => exact ⟨ms, rfl⟩
      | arr es =>
          cases es with
          | nil => exact ⟨[], rfl⟩
          | cons hd tl =>
              cases hd with
              | null => exact ⟨[], rfl⟩
              | bool b => exact ⟨[], rfl⟩
              | num n => exact ⟨[], rfl⟩
              | str s => exact ⟨[], rfl⟩
              | arr es2 => exact ⟨[], rfl⟩
              | obj ms => exact ⟨ms, rfl⟩

/-- The normalizer never returns Python `None`: the agent's `is None` check
can never fire. -/
theorem parse_json_from_llm_ne_null (raw : PyStr) :
    ¬(parse_json_from_llm raw = Json.null) := by
  obtain ⟨m, hm⟩ := parse_json_from_llm_isObj raw
  rw [hm]
  intro h
  exact Json.noConfusion h

/-! ### The round-alignment invariant -/

/-- Every `tool` entry is preceded by an `assistant` entry whose tool-call
list contains a request with the matching identifier. -/
def aligned (msgs : List Message) : Prop :=
  ∀ i, (hi : i < msgs.length) → msgs[i].role = Role.tool →
    ∃ j, ∃ hj : j < msgs.length, j < i ∧ msgs[j].role = Role.assistant ∧
      ∃ cid, msgs[i].toolCallId = some cid ∧ cid ∈ msgs[j].toolCalls.map ToolCall.id

/-- Strengthening used for the preservation proof: the matching assistant
entry moreover has only `tool` entries between itself and the result. -/
def alignedStrong (msgs : List Message) : Prop :=
  ∀ i, (hi : i < msgs.length) → msgs[i].role = Role.tool →
    ∃ j, ∃ hj : j < msgs.length, j < i ∧ msgs[j].role = Role.assistant ∧
      (∃ cid, msgs[i].toolCallId = some cid ∧ cid ∈ msgs[j].toolCalls.map ToolCall.id) ∧
      ∀ r, (hr : r < msgs.length) → j < r → r < i → msgs[r].role = Role.tool

/-- Index-equality transport for list access. -/
theorem get_idx_eq {α : Type} (l : List α) (i j : Nat) (hij : i = j)
    (hi : i < l.length) (hj : j < l.length) : l[i] = l[j] := by
  subst hij
  rfl

/-- The strengthened invariant implies the round-alignment invariant. -/
theorem alignedStrong_aligned (msgs : List Message) (h : alignedStrong msgs) :
    aligned msgs := by
  intro i hi hrole
  obtain ⟨j, hj, hji, hrj, hcid, _⟩ := h i hi hrole
  exact ⟨j, hj, hji, hrj, hcid⟩

/-- A transcript without `tool` entries is strongly aligned. -/
theorem alignedStrong_of_no_tool (msgs : List Message)
    (h : ∀ m ∈ msgs, ¬(m.role = Role.tool)) : alignedStrong msgs := by
  intro i hi hrole
  exact absurd hrole (h msgs[i] (List.getElem_mem hi))

/-- Appending a non-`tool` entry preserves the strengthened invariant. -/
theorem alignedStrong_append_one (msgs : List Message) (m : Message)
    (hm : ¬(m.role = Role.tool)) (h : alignedStrong msgs) :
    alignedStrong (msgs ++ [m]) := by
  intro i hi hrole
  have hlen : (msgs ++ [m]).length = msgs.length + 1 := by
    rw [List.length_append]
    rfl
  by_cases hil : i < msgs.length
  · rw [List.getElem_append_left hil] at hrole
    obtain ⟨j, hj, hji, hrj, ⟨cid, hcid1, hcid2⟩, hbetween⟩ := h i hil hrole
    refine ⟨j, by omega, hji, ?_, ⟨cid, ?_, ?_⟩, ?_⟩
    · rw [List.getElem_append_left hj]
      exact hrj
    · rw [List.getElem_append_left hil]
      exact hcid1
    · rw [List.getElem_append_left hj]
      exact hcid2
    · intro r hr hjr hri
      have hrl : r < msgs.length := by omega
      rw [List.getElem_append_left hrl]
      exact hbetween r hrl hjr hri
  · have hieq : i = msgs.length := by omega
    rw [List.getElem_append_right (by omega)] at hrole
    subst hieq
    simp only [Nat.sub_self] at hrole
    exact absurd hrole hm

/-- Appending an assistant entry followed by `tool` entries that all answer
its requests preserves the strengthened invariant. -/
theorem alignedStrong_round (msgs : List Message) (a : Message) (ts : List Message)
    (h : alignedStrong msgs) (ha : a.role = Role.assistant)
    (hts : ∀ t ∈ ts, t.role = Role.tool ∧
      ∃ cid, t.toolCallId = some cid ∧ cid ∈ a.toolCalls.map ToolCall.id) :
    alignedStrong (msgs ++ a :: ts) := by
  intro i hi hrole
  have hlen : (msgs ++ a :: ts).length = msgs.length + 1 + ts.length := by
    rw [List.length_append, List.length_cons]
    omega
  by_cases hil : i < msgs.length
  · rw [List.getElem_append_left hil] at hrole
    obtain ⟨j, hj, hji, hrj, ⟨cid, hcid1, hcid2⟩, hbetween⟩ := h i hil hrole
    refine ⟨j, by omega, hji, ?_, ⟨cid, ?_, ?_⟩, ?_⟩
    · rw [List.getElem_append_left hj]
      exact hrj
    · rw [List.getElem_append_left hil]
      exact hcid1
    · rw [List.getElem_append_left hj]
      exact hcid2
    · intro r hr hjr hri
      have hrl : r < msgs.length := by omega
      rw [List.getElem_append_left hrl]
      exact hbetween r hrl hjr hri
  · by_cases hia : i = msgs.length
    · rw [List.getElem_append_right (by omega)] at hrole
      subst hia
      simp only [Nat.sub_self] at hrole
      rw [show (a :: ts)[0] = a from rfl] at hrole
      rw [hrole] at ha
      exact absurd ha (by intro hcontra; exact Role.noConfusion hcontra)
    · have hits : msgs.length + 1 ≤ i := by omega
      have hidx : i - msgs.length = (i - msgs.length - 1) + 1 := by omega
      have hts2 : i - msgs.length - 1 < ts.length := by omega
      have hi2 : (msgs ++ a :: ts)[i] = ts[i - msgs.length - 1] := by
        rw [List.getElem_append_right (by omega),
          get_idx_eq (a :: ts) (i - msgs.length) ((i - msgs.length - 1) + 1) hidx
            (by rw [List.length_cons]; omega) (by rw [List.length_cons]; omega),
          List.getElem_cons_succ]
      have hmem : ts[i - msgs.length - 1] ∈ ts := List.getElem_mem hts2
      obtain ⟨_, cid, hcid1, hcid2⟩ := hts _ hmem
      refine ⟨msgs.length, by omega, by omega, ?_, ⟨cid, ?_, ?_⟩, ?_⟩
      · rw [List.getElem_append_right (by omega)]
        simp only [Nat.sub_self]
        exact ha
      · rw [hi2]
        exact hcid1
      · rw [List.getElem_append_right (le_refl msgs.length)]
        simp only [Nat.sub_self]
        exact hcid2
      · intro r hr hjr hri
        have hrts : r - msgs.length - 1 < ts.length := by omega
        have hr2 : (msgs ++ a :: ts)[r] = ts[r - msgs.length - 1] := by
          rw [List.getElem_append_right (by omega),
            get_idx_eq (a :: ts) (r - msgs.length) ((r - msgs.length - 1) + 1) (by omega)
              (by rw [List.length_cons]; omega) (by rw [List.length_cons]; omega),
            List.getElem_cons_succ]
        rw [hr2]
        exact (hts _ (List.getElem_mem hrts)).1

/-- Dropping everything before a `user` entry preserves the invariant: the
matching assistant entry can never lie strictly before the cut. -/
theorem alignedStrong_drop (msgs : List Message) (c : Nat) (hc : c < msgs.length)
    (hrole : msgs[c].role = Role.user) (h : alignedStrong msgs) :
    alignedStrong (msgs.drop c) := by
  intro i hi hroleI
  have hlen : (msgs.drop c).length = msgs.length - c := List.length_drop c msgs
  have hig : c + i < msgs.length := by omega
  rw [List.getElem_drop] at hroleI
  obtain ⟨j, hj, hji, hrj, ⟨cid, hcid1, hcid2⟩, hbetween⟩ := h (c + i) hig hroleI
  have hjc : c ≤ j := by
    by_contra hlt
    push_neg at hlt
    by_cases hi0 : i = 0
    · subst hi0
      exact Role.noConfusion (hrole.symm.trans hroleI)
    · have hct := hbetween c hc (by omega) (by omega)
      rw [hct] at hrole
      exact Role.noConfusion hrole
  have hidx : msgs[c + (j - c)] = msgs[j] :=
    get_idx_eq msgs (c + (j - c)) j (by omega) (by omega) hj
  refine ⟨j - c, by omega, by omega, ?_, ⟨cid, ?_, ?_⟩, ?_⟩
  · rw [List.getElem_drop, hidx]
    exact hrj
  · rw [List.getElem_drop]
    exact hcid1
  · rw [List.getElem_drop, hidx]
    exact hcid2
  · intro r hr hjr hri
    rw [List.getElem_drop]
    exact hbetween (c + r) (by omega) (by omega) (by omega)

/-- Prepending a non-`tool` entry preserves the strengthened invariant. -/
theorem alignedStrong_cons (m : Message) (msgs : List Message)
    (hm : ¬(m.role = Role.tool)) (h : alignedStrong msgs) :
    alignedStrong (m :: msgs) := by
  intro i hi hrole
  cases i with
  | zero => exact absurd hrole hm
  | succ i2 =>
      rw [List.getElem_cons_succ] at hrole
      have hi2 : i2 < msgs.length := by
        have := hi
        rw [List.length_cons] at this
        omega
      obtain ⟨j, hj, hji, hrj, ⟨cid, hcid1, hcid2⟩, hbetween⟩ := h i2 hi2 hrole
      refine ⟨j + 1, by rw [List.length_cons]; omega, by omega, ?_, ⟨cid, ?_, ?_⟩, ?_⟩
      · rw [List.getElem_cons_succ]
        exact hrj
      · rw [List.getElem_cons_succ]
        exact hcid1
      · rw [List.getElem_cons_succ]
        exact hcid2
      · intro r hr hjr hri
        cases r with
        | zero => omega
        | succ r2 =>
            rw [List.getElem_cons_succ]
            have hr2 : r2 < msgs.length := by
              have := hr
              rw [List.length_cons] at this
              omega
            exact hbetween r2 hr2 (by omega) (by omega)

/-! ### User-entry indices and the compaction characterization -/

/-- The number of `user` entries in a transcript. -/
def userCount (msgs : List Message) : Nat :=
  (msgs.filter (fun m => m.role == Role.user)).length

/-- `userIndices` with an arbitrary enumeration offset (for induction). -/
def uIdxFrom (n : Nat) (msgs : List Message) : List Nat :=
  ((List.enumFrom n msgs).filter (fun p => p.2.role == Role.user)).map Prod.fst

/-- List-equality transport for list access. -/
theorem getElem_list_eq {α : Type} (l l2 : List α) (i : Nat) (h : l = l2)
    (hi : i < l.length) (hi2 : i < l2.length) : l[i] = l2[i] := by
  subst h
  rfl

/-- One unfolding of `uIdxFrom`. -/
theorem uIdxFrom_cons (n : Nat) (m : Message) (msgs : List Message) :
    uIdxFrom n (m :: msgs)
      = if m.role == Role.user then n :: uIdxFrom (n + 1) msgs
        else uIdxFrom (n + 1) msgs := by
  rw [uIdxFrom, List.enumFrom_cons, List.filter_cons]
  by_cases h : (m.role == Role.user) = true
  · rw [if_pos h, if_pos h]
    rfl
  · rw [if_neg h, if_neg h]
    rfl

/-- One unfolding of `userCount`. -/
theorem userCount_cons (m : Message) (msgs : List Message) :
    userCount (m :: msgs)
      = (if m.role == Role.user then 1 else 0) + userCount msgs := by
  by_cases h : (m.role == Role.user) = true
  · simp [userCount, List.filter_cons, h]
    omega
  · simp [userCount, List.filter_cons, h]

/-- There are as many user indices as user entries. -/
theorem uIdxFrom_length (msgs : List Message) : ∀ n : Nat,
    (uIdxFrom n msgs).length = userCount msgs := by
  induction msgs with
  | nil => intro n; rfl
  | cons m t ih =>
      intro n
      rw [uIdxFrom_cons, userCount_cons]
      by_cases h : (m.role == Role.user) = true
      · rw [if_pos h, if_pos h, List.length_cons, ih (n + 1)]
        omega
      · rw [if_neg h, if_neg h, ih (n + 1)]
        omega

/-- The `k`-th user index points at a `user` entry preceded by exactly `k`
user entries. -/
theorem uIdxFrom_spec (msgs : List Message) : ∀ (n k : Nat),
    (hk : k < (uIdxFrom n msgs).length) →
    ∃ i, (uIdxFrom n msgs)[k] = n + i ∧
      ∃ hi : i < msgs.length, msgs[i].role = Role.user ∧ userCount (msgs.take i) = k := by
  induction msgs with
  | nil => intro n k hk; rw [uIdxFrom] at hk; simp at hk
  | cons m t ih =>
      intro n k hk
      by_cases h : (m.role == Role.user) = true
      · have hcons : uIdxFrom n (m :: t) = n :: uIdxFrom (n + 1) t := by
          rw [uIdxFrom_cons, if_pos h]
        cases k with
        | zero =>
            refine ⟨0, ?_, by rw [List.length_cons]; omega, ?_, ?_⟩
            · rw [getElem_list_eq _ _ 0 hcons hk (by rw [hcons] at hk; exact hk)]
              rfl
            · show m.role = Role.user
              exact beq_iff_eq.mp h
            · rfl
        | succ k2 =>
            have hk2 : k2 < (uIdxFrom (n + 1) t).length := by
              have h2 := hk
              rw [hcons, List.length_cons] at h2
              omega
            obtain ⟨i, hval, hi, hrole, hcount⟩ := ih (n + 1) k2 hk2
            refine ⟨i + 1, ?_, by rw [List.length_cons]; omega, ?_, ?_⟩
            · rw [getElem_list_eq _ _ (k2 + 1) hcons hk (by rw [hcons] at hk; exact hk),
                List.getElem_cons_succ, hval]
              omega
            · rw [List.getElem_cons_succ]
              exact hrole
            · show userCount (m :: t.take i) = k2 + 1
              rw [userCount_cons, if_pos h, hcount]
              omega
      · have hcons : uIdxFrom n (m :: t) = uIdxFrom (n + 1) t := by
          rw [uIdxFrom_cons, if_neg h]
        have hk2 : k < (uIdxFrom (n + 1) t).length := by
          rw [hcons] at hk
          exact hk
        obtain ⟨i, hval, hi, hrole, hcount⟩ := ih (n + 1) k hk2
        refine ⟨i + 1, ?_, by rw [List.length_cons]; omega, ?_, ?_⟩
        · rw [getElem_list_eq _ _ k hcons hk hk2, hval]
          omega
        · rw [List.getElem_cons_succ]
          exact hrole
        · show userCount (m :: t.take i) = k
          rw [userCount_cons, if_neg h, hcount]
          omega

/-- There are as many `userIndices` as user entries. -/
theorem userIndices_length (msgs : List Message) :
    (userIndices msgs).length = userCount msgs :=
  uIdxFrom_length msgs 0

/-- The `k`-th entry of `userIndices` is the index of the `user` entry
preceded by exactly `k` user entries. -/
theorem userIndices_spec (msgs : List Message) (k : Nat)
    (hk : k < (userIndices msgs).length) :
    ∃ i, (userIndices msgs)[k] = i ∧
      ∃ hi : i < msgs.length, msgs[i].role = Role.user ∧ userCount (msgs.take i) = k := by
  obtain ⟨i, hval, hi, hrole, hcount⟩ := uIdxFrom_spec msgs 0 k hk
  refine ⟨i, ?_, hi, hrole, hcount⟩
  have h2 : (userIndices msgs)[k] = 0 + i := hval
  rw [Nat.zero_add] at h2
  exact h2

/-- Below the length threshold, compaction does nothing. -/
theorem manage_history_below (H : Nat) (msgs : List Message)
    (h : msgs.length < H * 4) : manage_history H msgs = msgs := by
  rw [manage_history.eq_def, if_pos h]

/-- With at most `H` user entries, compaction does nothing. -/
theorem manage_history_few (H : Nat) (msgs : List Message)
    (h : userCount msgs ≤ H) : manage_history H msgs = msgs := by
  rw [manage_history.eq_def]
  by_cases htrig : msgs.length < H * 4
  · rw [if_pos htrig]
  · rw [if_neg htrig]
    simp only []
    rw [if_neg (show ¬H < (userIndices msgs).length from by
      rw [userIndices_length]
      omega)]

/-- The optional leading system entry that compaction preserves. -/
def sysHead : List Message → List Message
  | [] => []
  | m :: _ => if m.role = Role.system then [m] else []

/-- Above the threshold with more than `H` user entries, the code cuts at a
`user`-entry index (for `H ≥ 1`, the one with exactly `userCount - H` user
entries before it) and keeps the optional system head plus the suffix. -/
theorem manage_history_cut_core (H : Nat) (msgs : List Message)
    (htrig : ¬(msgs.length < H * 4)) (hmany : H < userCount msgs) :
    ∃ c, ∃ hc : c < msgs.length, msgs[c].role = Role.user ∧
      userCount (msgs.take c) = (if H = 0 then 0 else userCount msgs - H) ∧
      manage_history H msgs = sysHead msgs ++ msgs.drop c := by
  have hulen := userIndices_length msgs
  have hklt : (if H = 0 then 0 else (userIndices msgs).length - H)
      < (userIndices msgs).length := by
    by_cases h0 : H = 0
    · rw [if_pos h0]
      omega
    · rw [if_neg h0]
      omega
  obtain ⟨i, hval, hi, hrole, hcount⟩ := userIndices_spec msgs _ hklt
  refine ⟨i, hi, hrole, ?_, ?_⟩
  · rw [hcount, hulen]
  · rw [manage_history.eq_def, if_neg htrig]
    simp only []
    rw [if_pos (show H < (userIndices msgs).length from by omega)]
    have hgetD : (userIndices msgs).getD
        (if H = 0 then 0 else (userIndices msgs).length - H) 0 = i := by
      rw [List.getD_eq_getElem _ _ hklt, hval]
    rw [hgetD]
    cases msgs with
    | nil => exact absurd hi (by simp)
    | cons m t =>
        dsimp only [sysHead]
        by_cases hsys : m.role = Role.system
        · rw [if_pos hsys, if_pos hsys]
          try rfl
        · rw [if_neg hsys, if_neg hsys]
          try rfl

/-- Compaction preserves the strengthened alignment invariant. -/
theorem manage_history_alignedStrong (H : Nat) (msgs : List Message)
    (h : alignedStrong msgs) : alignedStrong (manage_history H msgs) := by
  by_cases htrig : msgs.length < H * 4
  · rw [manage_history_below H msgs htrig]
    exact h
  · by_cases hmany : userCount msgs ≤ H
    · rw [manage_history_few H msgs hmany]
      exact h
    · obtain ⟨c, hc, hrole, _, heq⟩ :=
        manage_history_cut_core H msgs htrig (by omega)
      rw [heq]
      have hdrop := alignedStrong_drop msgs c hc hrole h
      cases msgs with
      | nil => exact absurd hc (by simp)
      | cons m t =>
          by_cases hsys : m.role = Role.system
          · show alignedStrong ((if m.role = Role.system then [m] else []) ++ (m :: t).drop c)
            rw [if_pos hsys, List.singleton_append]
            exact alignedStrong_cons m _ (by rw [hsys]; exact fun hx => Role.noConfusion hx)
              hdrop
          · show alignedStrong ((if m.role = Role.system then [m] else []) ++ (m :: t).drop c)
            rw [if_neg hsys, List.nil_append]
            exact hdrop

/-! ### The tool-call loop: step lemmas and invariant preservation -/

/-- Out of fuel: the loop returns the advisory message. -/
theorem chatLoop_zero (backend : Backend) (funcs : Funcs) (msgs : List Message) :
    chatLoop backend funcs 0 msgs = ⟨advisoryMsg, msgs, 0, 0⟩ := rfl

/-- One unfolding of the loop body. -/
theorem chatLoop_succ (backend : Backend) (funcs : Funcs) (fuel : Nat)
    (msgs : List Message) :
    chatLoop backend funcs (fuel + 1) msgs
      = match (backend msgs).toolCalls with
        | [] => ⟨(backend msgs).content, msgs ++ [assistantMsg (backend msgs)], 1, 0⟩
        | _ :: _ =>
            let r := chatLoop backend funcs fuel
              ((msgs ++ [assistantMsg (backend msgs)]) ++ processCalls funcs (backend msgs).toolCalls)
            ⟨r.reply, r.messages, r.calls + 1, r.rounds + 1⟩ := rfl

/-- A round without tool calls returns the model content at once. -/
theorem chatLoop_succ_noTools (backend : Backend) (funcs : Funcs) (fuel : Nat)
    (msgs : List Message) (h : (backend msgs).toolCalls = []) :
    chatLoop backend funcs (fuel + 1) msgs
      = ⟨(backend msgs).content, msgs ++ [assistantMsg (backend msgs)], 1, 0⟩ := by
  rw [chatLoop_succ, h]

/-- A round with tool calls appends the assistant entry and the tool
results, then loops. -/
theorem chatLoop_succ_tools (backend : Backend) (funcs : Funcs) (fuel : Nat)
    (msgs : List Message) (tc : ToolCall) (tcs : List ToolCall)
    (h : (backend msgs).toolCalls = tc :: tcs) :
    chatLoop backend funcs (fuel + 1) msgs
      = let r := chatLoop backend funcs fuel
          ((msgs ++ [assistantMsg (backend msgs)]) ++ processCalls funcs (tc :: tcs))
        ⟨r.reply, r.messages, r.calls + 1, r.rounds + 1⟩ := by
  rw [chatLoop_succ, h]

/-- The tool-call loop preserves the strengthened alignment invariant. -/
theorem chatLoop_alignedStrong (backend : Backend) (funcs : Funcs) :
    ∀ (fuel : Nat) (msgs : List Message),
    alignedStrong msgs → alignedStrong (chatLoop backend funcs fuel msgs).messages := by
  intro fuel
  induction fuel with
  | zero => intro msgs h; exact h
  | succ f ih =>
      intro msgs h
      cases htc : (backend msgs).toolCalls with
      | nil =>
          rw [chatLoop_succ_noTools backend funcs f msgs htc]
          exact alignedStrong_append_one msgs (assistantMsg (backend msgs))
            (fun hx => Role.noConfusion hx) h
      | cons tc tcs =>
          rw [chatLoop_succ_tools backend funcs f msgs tc tcs htc]
          show alignedStrong (chatLoop backend funcs f
            ((msgs ++ [assistantMsg (backend msgs)]) ++ processCalls funcs (tc :: tcs))).messages
          apply ih
          rw [List.append_assoc]
          show alignedStrong (msgs ++ assistantMsg (backend msgs) :: processCalls funcs (tc :: tcs))
          apply alignedStrong_round msgs (assistantMsg (backend msgs))
            (processCalls funcs (tc :: tcs)) h rfl
          intro t ht
          rw [processCalls] at ht
          obtain ⟨tc2, htc2, rfl⟩ := List.mem_map.mp ht
          refine ⟨rfl, tc2.id, rfl, ?_⟩
          rw [show (assistantMsg (backend msgs)).toolCalls = (backend msgs).toolCalls from rfl,
            htc]
          exact List.mem_map.mpr ⟨tc2, htc2, rfl⟩

/-- One full `chat` turn preserves the strengthened alignment invariant. -/
theorem chat_alignedStrong (backend : Backend) (funcs : Funcs)
    (maxHistory maxToolIterations : Nat) (input : PyStr) (msgs : List Message)
    (h : alignedStrong msgs) :
    alignedStrong (chat backend funcs maxHistory maxToolIterations input msgs).messages := by
  show alignedStrong (chatLoop backend funcs maxToolIterations
    (manage_history maxHistory msgs ++ [userMsg input])).messages
  exact chatLoop_alignedStrong backend funcs maxToolIterations _
    (alignedStrong_append_one _ _ (fun hx => Role.noConfusion hx)
      (manage_history_alignedStrong maxHistory msgs h))

/-- Every reachable transcript satisfies the strengthened invariant. -/
theorem reachable_alignedStrong (msgs : List Message) (h : Reachable msgs) :
    alignedStrong msgs := by
  induction h with
  | init =>
      apply alignedStrong_of_no_tool
      intro m hm
      rw [initMessages, List.mem_singleton] at hm
      subst hm
      exact fun hx => Role.noConfusion hx
  | step backend funcs maxHistory maxToolIterations input msgs2 hr ih =>
      exact chat_alignedStrong backend funcs maxHistory maxToolIterations input msgs2 ih

/-! ### Loop behavior: iteration bound, call counting, reply totality -/

/-- Against a backend that always requests tools, the loop exhausts its fuel
and returns the advisory message, with one backend call per round. -/
theorem chatLoop_allTools (backend : Backend) (funcs : Funcs)
    (hall : ∀ ms, (backend ms).toolCalls ≠ []) :
    ∀ (fuel : Nat) (msgs : List Message),
      (chatLoop backend funcs fuel msgs).reply = advisoryMsg ∧
      (chatLoop backend funcs fuel msgs).calls = fuel ∧
      (chatLoop backend funcs fuel msgs).rounds = fuel := by
  intro fuel
  induction fuel with
  | zero => intro msgs; exact ⟨rfl, rfl, rfl⟩
  | succ f ih =>
      intro msgs
      cases htc : (backend msgs).toolCalls with
      | nil => exact absurd htc (hall msgs)
      | cons tc tcs =>
          rw [chatLoop_succ_tools backend funcs f msgs tc tcs htc]
          obtain ⟨h1, h2, h3⟩ :=
            ih ((msgs ++ [assistantMsg (backend msgs)]) ++ processCalls funcs (tc :: tcs))
          refine ⟨h1, ?_, ?_⟩
          · show (chatLoop backend funcs f
              ((msgs ++ [assistantMsg (backend msgs)]) ++ processCalls funcs (tc :: tcs))).calls
                + 1 = f + 1
            rw [h2]
          · show (chatLoop backend funcs f
              ((msgs ++ [assistantMsg (backend msgs)]) ++ processCalls funcs (tc :: tcs))).rounds
                + 1 = f + 1
            rw [h3]

/-- Either the loop returned the model content of some round — having made
one more backend call than tool rounds — or it hit the cap. -/
theorem chatLoop_calls_rounds (backend : Backend) (funcs : Funcs) :
    ∀ (fuel : Nat) (msgs : List Message),
      (chatLoop backend funcs fuel msgs).calls
          = (chatLoop backend funcs fuel msgs).rounds + 1 ∨
      ((chatLoop backend funcs fuel msgs).reply = advisoryMsg ∧
       (chatLoop backend funcs fuel msgs).calls = fuel ∧
       (chatLoop backend funcs fuel msgs).rounds = fuel) := by
  intro fuel
  induction fuel with
  | zero => intro msgs; exact Or.inr ⟨rfl, rfl, rfl⟩
  | succ f ih =>
      intro msgs
      cases htc : (backend msgs).toolCalls with
      | nil =>
          rw [chatLoop_succ_noTools backend funcs f msgs htc]
          exact Or.inl rfl
      | cons tc tcs =>
          rw [chatLoop_succ_tools backend funcs f msgs tc tcs htc]
          rcases ih ((msgs ++ [assistantMsg (backend msgs)]) ++ processCalls funcs (tc :: tcs))
            with h | ⟨h1, h2, h3⟩
          · refine Or.inl ?_
            show (chatLoop backend funcs f
              ((msgs ++ [assistantMsg (backend msgs)]) ++ processCalls funcs (tc :: tcs))).calls
                + 1
              = (chatLoop backend funcs f
                ((msgs ++ [assistantMsg (backend msgs)])
                  ++ processCalls funcs (tc :: tcs))).rounds + 1 + 1
            rw [h]
          · refine Or.inr ⟨h1, ?_, ?_⟩
            · show (chatLoop backend funcs f
                ((msgs ++ [assistantMsg (backend msgs)])
                  ++ processCalls funcs (tc :: tcs))).calls + 1 = f + 1
              rw [h2]
            · show (chatLoop backend funcs f
                ((msgs ++ [assistantMsg (backend msgs)])
                  ++ processCalls funcs (tc :: tcs))).rounds + 1 = f + 1
              rw [h3]

/-- The loop never aborts: its reply is the advisory message or the content
of some backend response. -/
theorem chatLoop_reply (backend : Backend) (funcs : Funcs) :
    ∀ (fuel : Nat) (msgs : List Message),
      (chatLoop backend funcs fuel msgs).reply = advisoryMsg ∨
      ∃ ms, (chatLoop backend funcs fuel msgs).reply = (backend ms).content := by
  intro fuel
  induction fuel with
  | zero => intro msgs; exact Or.inl rfl
  | succ f ih =>
      intro msgs
      cases htc : (backend msgs).toolCalls with
      | nil =>
          refine Or.inr ⟨msgs, ?_⟩
          rw [chatLoop_succ_noTools backend funcs f msgs htc]
      | cons tc tcs =>
          rw [chatLoop_succ_tools backend funcs f msgs tc tcs htc]
          exact ih ((msgs ++ [assistantMsg (backend msgs)]) ++ processCalls funcs (tc :: tcs))

/-! ### Tool dispatch outcomes -/

/-- The normalizer never yields the `None` the dead branch tests for, so a
tool call's result is decided by registry lookup and handler outcome. -/
theorem toolResult_eq (funcs : Funcs) (tc : ToolCall) :
    toolResult funcs tc
      = match funcs tc.name with
        | some f =>
            (match f (parse_json_from_llm tc.args) with
             | Except.ok r => r
             | Except.error e => toolErrorMsg e)
        | none => toolNotFoundMsg := by
  obtain ⟨m, hm⟩ := parse_json_from_llm_isObj tc.args
  rw [toolResult.eq_def, hm]

/-- An unregistered tool name yields the "tool not found" diagnostic. -/
theorem toolResult_notFound (funcs : Funcs) (tc : ToolCall)
    (h : funcs tc.name = none) : toolResult funcs tc = toolNotFoundMsg := by
  rw [toolResult_eq, h]

/-- A handler failure is caught and converted into a diagnostic. -/
theorem toolResult_handlerError (funcs : Funcs) (tc : ToolCall)
    (f : Handler) (e : PyStr) (hf : funcs tc.name = some f)
    (he : f (parse_json_from_llm tc.args) = Except.error e) :
    toolResult funcs tc = toolErrorMsg e := by
  rw [toolResult_eq, hf]
  dsimp only
  rw [he]

/-! ### Concrete fixtures for the claim theorems -/

/-- A clock reading used by the concrete runs. -/
def now0 : PyStr := pyStr "2026-01-01 12:00:00"

/-- A backend that always requests one `get_time` call. -/
def cBackend : Backend :=
  fun _ => ⟨pyStr "thinking", [⟨pyStr "call_1", pyStr "get_time", pyStr "\x7b\x7d"⟩]⟩

/-- An empty tool registry. -/
def funcs0 : Funcs := fun _ => none

/-- The registry of `Agent.__init__`, over pure note-store stubs. -/
def cFuncs : Funcs :=
  availableFunctions now0 (fun _ => Except.ok (pyStr "已记录: hi"))
    (fun _ => Except.ok (pyStr "[]"))

/-- The malformed-arguments tool call of the self-correction scenario. -/
def c2tc : ToolCall := ⟨pyStr "call_1", pyStr "get_time", pyStr "not json at all"⟩

/-- A handler that raises. -/
def errHandler : Handler := fun _ => Except.error (pyStr "boom")

/-- `cFuncs` extended with an always-raising tool. -/
def c7Funcs : Funcs := fun name =>
  if name = pyStr "boom_tool" then some errHandler else cFuncs name

/-- An object whose serialization contains a code fence. -/
def c8bad : Json := Json.obj [(pyStr "a", Json.str (pyStr "```\x7b\x7d ```"))]

/-! ### The claims -/

/-- C1 (amended): `parse_json_from_llm` maps empty input to the empty
object, but inputs whose recovered value is not an object — such as
`"[3, 4]"` and `"\"hello\""` — also yield the empty object: there is no
failure signal distinct from a valid empty object. -/
theorem normalizer_failure_indistinct :
    parse_json_from_llm (pyStr "") = Json.obj [] ∧
    parse_json_from_llm (pyStr "[3, 4]") = Json.obj [] ∧
    parse_json_from_llm (pyStr "\"hello\"") = Json.obj [] :=
  ⟨rfl, rfl, rfl⟩

/-- C1 counterexample: the results for the spec's failure inputs coincide
with the result for the empty input, so no caller can tell them apart. -/
theorem normalizer_distinct_failure_cex :
    parse_json_from_llm (pyStr "[3, 4]") = parse_json_from_llm (pyStr "") ∧
    parse_json_from_llm (pyStr "\"hello\"") = parse_json_from_llm (pyStr "") :=
  ⟨rfl, rfl⟩

/-- C2: on the raw argument text `not json at all` the normalizer returns
the empty dict — never `None` — so the `if func_args is None` branch of
`Agent.chat` is dead: the tool IS invoked with empty arguments and the
appended `tool` entry carries the clock reading, not the diagnostic that
embeds the raw text. -/
theorem malformed_args_tool_invoked :
    parse_json_from_llm (pyStr "not json at all") = Json.obj [] ∧
    processCalls cFuncs [c2tc] = [toolMsg (pyStr "call_1") now0] ∧
    toolMsgOf cFuncs c2tc ≠ toolMsg (pyStr "call_1") (invalidJsonMsg (pyStr "not json at all")) := by
  refine ⟨rfl, rfl, ?_⟩
  decide

/-- C8 (amended): the normalizer returns exactly `x` on the serialization
of a well-formed object `x` whose serialization the code-fence extractor
does not match. -/
theorem normalizer_roundtrip (m : List (PyStr × Json)) (h : wfPairs m = true)
    (hfence : fenceSearch (dumps (Json.obj m)) = none) :
    parse_json_from_llm (dumps (Json.obj m)) = Json.obj m :=
  parse_json_from_llm_dumps_obj m h hfence

/-- C8 witness: the round trip at the concrete object `{"a": 1}`. -/
theorem normalizer_roundtrip_witness :
    wfPairs [(pyStr "a", Json.num 1)] = true ∧
    fenceSearch (dumps (Json.obj [(pyStr "a", Json.num 1)])) = none ∧
    parse_json_from_llm (dumps (Json.obj [(pyStr "a", Json.num 1)]))
      = Json.obj [(pyStr "a", Json.num 1)] :=
  ⟨rfl, rfl, normalizer_roundtrip [(pyStr "a", Json.num 1)] rfl rfl⟩

/-- C8 counterexample: a well-formed object whose string value contains a
code fence; its serialization is hijacked by the fence regex and the
normalizer returns the empty object instead of the original. -/
theorem normalizer_roundtrip_cex :
    wfJson c8bad = true ∧
    parse_json_from_llm (dumps c8bad) = Json.obj [] ∧
    parse_json_from_llm (dumps c8bad) ≠ c8bad := by
  refine ⟨rfl, rfl, ?_⟩
  intro hx
  have h2 : Json.obj [] = c8bad := by
    rw [show Json.obj [] = parse_json_from_llm (dumps c8bad) from rfl]
    exact hx
  rw [c8bad] at h2
  injection h2 with h3
  exact List.noConfusion h3

/-- C9: on strict-parse failure the normalizer's repair pass recovers an
object from a trailing comma, from prose around the object, and from a
code fence; and whenever the repair pass yields an array headed by an
object, the normalizer returns that first element. -/
theorem tolerant_repair_pass :
    parse_json_from_llm_repair repair_json_model (pyStr "\x7b\"a\": 1,\x7d")
      = Json.obj [(pyStr "a", Json.num 1)] ∧
    parse_json_from_llm_repair repair_json_model
        (pyStr "Here is the JSON: \x7b\"a\": 1\x7d. Thanks!")
      = Json.obj [(pyStr "a", Json.num 1)] ∧
    parse_json_from_llm_repair repair_json_model (pyStr "```json\n\x7b\"a\": 1\x7d\n```")
      = Json.obj [(pyStr "a", Json.num 1)] ∧
    ∀ (t : PyStr) (m : List (PyStr × Json)) (l : List Json),
      repair_json_model t = some (Json.arr (Json.obj m :: l)) →
      parse_json_from_llm_repair repair_json_model t = Json.obj m := by
  refine ⟨rfl, rfl, rfl, ?_⟩
  intro t m l h
  by_cases ht : t = []
  · subst ht
    rw [show repair_json_model ([] : PyStr) = none from rfl] at h
    exact Option.noConfusion h
  · rw [parse_json_from_llm_repair, if_neg ht, h]

/-- C9 witness: an array of two objects; the repair pass yields the array
and the normalizer returns its first element. -/
theorem tolerant_repair_array_witness :
    repair_json_model (pyStr "[\x7b\"a\": 1\x7d, \x7b\"b\": 2\x7d]")
      = some (Json.arr [Json.obj [(pyStr "a", Json.num 1)], Json.obj [(pyStr "b", Json.num 2)]]) ∧
    parse_json_from_llm_repair repair_json_model (pyStr "[\x7b\"a\": 1\x7d, \x7b\"b\": 2\x7d]")
      = Json.obj [(pyStr "a", Json.num 1)] :=
  ⟨rfl, tolerant_repair_pass.2.2.2 (pyStr "[\x7b\"a\": 1\x7d, \x7b\"b\": 2\x7d]")
    [(pyStr "a", Json.num 1)] [Json.obj [(pyStr "b", Json.num 2)]] rfl⟩

/-- C10: both variants of the normalizer are total and always return a
dict: for every input (and any behaviour of the optional repair library)
the result is an object. -/
theorem normalizer_total (raw : PyStr) (repair : PyStr → Option Json) :
    (∃ m, parse_json_from_llm raw = Json.obj m) ∧
    (∃ m, parse_json_from_llm_repair repair raw = Json.obj m) :=
  ⟨parse_json_from_llm_isObj raw, parse_json_from_llm_repair_isObj repair raw⟩

/-- C3: against any backend whose responses always carry tool calls,
`chat` terminates after exactly `max_tool_iterations` tool rounds, makes
exactly that many backend calls, and returns the fixed advisory message. -/
theorem chat_iteration_bound (backend : Backend) (funcs : Funcs)
    (maxHistory maxToolIterations : Nat) (input : PyStr) (msgs : List Message)
    (hall : ∀ ms, (backend ms).toolCalls ≠ []) :
    (chat backend funcs maxHistory maxToolIterations input msgs).reply = advisoryMsg ∧
    (chat backend funcs maxHistory maxToolIterations input msgs).rounds = maxToolIterations ∧
    (chat backend funcs maxHistory maxToolIterations input msgs).calls = maxToolIterations := by
  obtain ⟨h1, h2, h3⟩ := chatLoop_allTools backend funcs hall maxToolIterations
    (manage_history maxHistory msgs ++ [userMsg input])
  exact ⟨h1, h3, h2⟩

/-- C3 witness: a concrete all-tools backend at the default bounds. -/
theorem chat_iteration_bound_witness :
    (chat cBackend funcs0 5 5 (pyStr "hi") initMessages).reply = advisoryMsg ∧
    (chat cBackend funcs0 5 5 (pyStr "hi") initMessages).rounds = 5 ∧
    (chat cBackend funcs0 5 5 (pyStr "hi") initMessages).calls = 5 :=
  chat_iteration_bound cBackend funcs0 5 5 (pyStr "hi") initMessages
    (fun _ hx => List.noConfusion hx)

/-- C4: every transcript reachable from construction through any sequence
of `chat` turns (hence through any number of compactions) satisfies the
round-alignment invariant: each `tool` entry is preceded by an `assistant`
entry whose request list carries the matching identifier. -/
theorem reachable_round_alignment (msgs : List Message) (h : Reachable msgs) :
    aligned msgs :=
  alignedStrong_aligned msgs (reachable_alignedStrong msgs h)

/-- C4 witness: the state after one concrete turn with tool rounds. -/
theorem reachable_round_alignment_witness :
    aligned (chat cBackend cFuncs 5 2 (pyStr "hi") initMessages).messages :=
  reachable_round_alignment _
    (Reachable.step cBackend cFuncs 5 2 (pyStr "hi") initMessages Reachable.init)

/-- C5: compaction correctness of `_manage_history`: below the
`max_history * 4` length threshold it does nothing; with at most
`max_history` user entries it does nothing; and otherwise (for
`max_history ≥ 1`) it keeps the optional leading system entry plus exactly
the entries from the `(U - H + 1)`-th user entry onward — the cut lands on
a user entry preceded by exactly `U - H` user entries. -/
theorem compaction_correct (H : Nat) (msgs : List Message) :
    (msgs.length < H * 4 → manage_history H msgs = msgs) ∧
    (userCount msgs ≤ H → manage_history H msgs = msgs) ∧
    (H * 4 ≤ msgs.length → 1 ≤ H → H < userCount msgs →
      ∃ c, ∃ hc : c < msgs.length, msgs[c].role = Role.user ∧
        userCount (msgs.take c) = userCount msgs - H ∧
        manage_history H msgs = sysHead msgs ++ msgs.drop c) := by
  refine ⟨manage_history_below H msgs, manage_history_few H msgs, ?_⟩
  intro htrig hpos hmany
  obtain ⟨c, hc, hrole, hcount, heq⟩ := manage_history_cut_core H msgs (by omega) hmany
  refine ⟨c, hc, hrole, ?_, heq⟩
  rw [hcount, if_neg (show ¬H = 0 by omega)]

/-- A four-entry transcript with two user entries, used to exercise the
compaction cut at `max_history = 1`. -/
def w5msgs : List Message :=
  [⟨Role.system, pyStr "s", [], none⟩, userMsg (pyStr "a"),
   ⟨Role.assistant, pyStr "r", [], none⟩, userMsg (pyStr "b")]

/-- C5 witness: the cut branch at a concrete transcript. -/
theorem compaction_correct_witness :
    ∃ c, ∃ hc : c < w5msgs.length, w5msgs[c].role = Role.user ∧
      userCount (w5msgs.take c) = userCount w5msgs - 1 ∧
      manage_history 1 w5msgs = sysHead w5msgs ++ w5msgs.drop c :=
  (compaction_correct 1 w5msgs).2.2 (by decide) (by decide) (by decide)

/-- C6 (amended): either the turn ended with a plain reply — the backend
invoked once more than the tool rounds, so every completed round was fed
back — or the iteration cap cut the turn short, and the final (cap-th)
round's tool outcomes were never re-sent to the model. -/
theorem backend_reinvoked_or_cap (backend : Backend) (funcs : Funcs)
    (maxHistory maxToolIterations : Nat) (input : PyStr) (msgs : List Message) :
    (chat backend funcs maxHistory maxToolIterations input msgs).calls
      = (chat backend funcs maxHistory maxToolIterations input msgs).rounds + 1 ∨
    ((chat backend funcs maxHistory maxToolIterations input msgs).reply = advisoryMsg ∧
     (chat backend funcs maxHistory maxToolIterations input msgs).calls = maxToolIterations ∧
     (chat backend funcs maxHistory maxToolIterations input msgs).rounds = maxToolIterations) :=
  chatLoop_calls_rounds backend funcs maxToolIterations _

/-- C6 counterexample: a concrete five-round run makes exactly five
backend calls, so the model is never re-invoked after the fifth round's
tool outcomes. -/
theorem backend_reinvoked_cex :
    (chat cBackend cFuncs 5 5 (pyStr "hi") initMessages).rounds = 5 ∧
    (chat cBackend cFuncs 5 5 (pyStr "hi") initMessages).calls = 5 ∧
    ¬((chat cBackend cFuncs 5 5 (pyStr "hi") initMessages).calls
        ≥ (chat cBackend cFuncs 5 5 (pyStr "hi") initMessages).rounds + 1) := by
  refine ⟨rfl, rfl, ?_⟩
  decide

/-- C7: for a request whose arguments normalize: an unregistered name
yields a "tool not found" `tool` entry in the round's appended block; a
handler that raises yields a `tool` entry with the failure description;
and the loop never aborts — the reply is the advisory message or some
model content. -/
theorem tool_failures_nonfatal (backend : Backend) (funcs : Funcs)
    (tcs : List ToolCall) (tc : ToolCall) :
    (tc ∈ tcs → funcs tc.name = none →
      toolMsg tc.id toolNotFoundMsg ∈ processCalls funcs tcs) ∧
    (∀ f e, tc ∈ tcs → funcs tc.name = some f →
      f (parse_json_from_llm tc.args) = Except.error e →
      toolMsg tc.id (toolErrorMsg e) ∈ processCalls funcs tcs) ∧
    (∀ fuel msgs,
      (chatLoop backend funcs fuel msgs).reply = advisoryMsg ∨
      ∃ ms, (chatLoop backend funcs fuel msgs).reply = (backend ms).content) := by
  refine ⟨?_, ?_, chatLoop_reply backend funcs⟩
  · intro hmem hnone
    rw [processCalls]
    refine List.mem_map.mpr ⟨tc, hmem, ?_⟩
    rw [toolMsgOf, toolResult_notFound funcs tc hnone]
  · intro f e hmem hf he
    rw [processCalls]
    refine List.mem_map.mpr ⟨tc, hmem, ?_⟩
    rw [toolMsgOf, toolResult_handlerError funcs tc f e hf he]

/-- The unregistered-tool request of the spec's scenario. -/
def c7del : ToolCall := ⟨pyStr "call_9", pyStr "delete_everything", pyStr "\x7b\x7d"⟩

/-- A request for the always-raising tool. -/
def c7boom : ToolCall := ⟨pyStr "call_8", pyStr "boom_tool", pyStr "\x7b\x7d"⟩

/-- C7 witness: `delete_everything` against the registry, a raising
handler, and the loop outcome, all at concrete inputs. -/
theorem tool_failures_nonfatal_witness :
    toolMsg (pyStr "call_9") toolNotFoundMsg ∈ processCalls c7Funcs [c7del, c7boom] ∧
    toolMsg (pyStr "call_8") (toolErrorMsg (pyStr "boom")) ∈ processCalls c7Funcs [c7del, c7boom] ∧
    ((chatLoop cBackend c7Funcs 1 initMessages).reply = advisoryMsg ∨
      ∃ ms, (chatLoop cBackend c7Funcs 1 initMessages).reply = (cBackend ms).content) :=
  ⟨(tool_failures_nonfatal cBackend c7Funcs [c7del, c7boom] c7del).1
      (List.mem_cons_self c7del [c7boom]) rfl,
   (tool_failures_nonfatal cBackend c7Funcs [c7del, c7boom] c7boom).2.1 errHandler
      (pyStr "boom") (List.mem_cons_of_mem c7del (List.mem_cons_self c7boom [])) rfl rfl,
   (tool_failures_nonfatal cBackend c7Funcs [c7del, c7boom] c7boom).2.2 1 initMessages⟩

end ApiAgent

